import Mathlib

/-!
Verification model of `canvas_assignments.py`, a Canvas-API client that
fetches courses and assignments over a paginated, rate-limited HTTP API,
sorts assignments by due date, and renders the result as text/markdown/
csv/html.

The Python source is shallowly embedded: strings are `String`/`List Char`,
JSON records are a structure with optional fields (mirroring defensive
`dict.get` access), the network is a scripted list of responses, and
side effects (sleeps, issued requests) are returned as explicit data.
Each definition's doc comment names the Python function it translates.
-/

namespace Canvas

/-! ## Character classes and small string helpers -/

/-- Python's whitespace class, shared by `str.strip()`, `str.isspace()`
and the regex `\s` on `str` patterns: the characters U+0009..U+000D,
U+001C..U+001F, space, U+0085, U+00A0, U+1680, U+2000..U+200A, U+2028,
U+2029, U+202F, U+205F and U+3000 (verified against CPython, where the
three notions agree on every code point). -/
def isPySpace (c : Char) : Bool :=
  c = ' ' ∨ ('\x09' ≤ c ∧ c ≤ '\x0d') ∨ ('\x1c' ≤ c ∧ c ≤ '\x1f') ∨
  c = '\x85' ∨ c = '\xa0' ∨ c = '\u1680' ∨ ('\u2000' ≤ c ∧ c ≤ '\u200a') ∨
  c = '\u2028' ∨ c = '\u2029' ∨ c = '\u202f' ∨ c = '\u205f' ∨ c = '\u3000'

/-- ASCII decimal digit, Python's `\d` on the inputs in scope. -/
def isAsciiDigit (c : Char) : Bool :=
  '0' ≤ c ∧ c ≤ '9'

/-- Python `str.lower` restricted to ASCII, used for the case-insensitive
comparisons in the source (`term.lower()`, `re.I`). -/
def pyLower (c : Char) : Char := c.toLower

/-- Python `str.lstrip()` on a character list. -/
def lstripWs (cs : List Char) : List Char := cs.dropWhile isPySpace

/-- Python `str.rstrip()` on a character list. -/
def rstripWs (cs : List Char) : List Char :=
  ((cs.reverse).dropWhile isPySpace).reverse

/-- Python `str.strip()` on a character list. -/
def stripWs (cs : List Char) : List Char := rstripWs (lstripWs cs)

/-- Python substring containment `needle in hay` on character lists. -/
def pyContainsAux (needle : List Char) : List Char → Bool
  | [] => needle.isEmpty
  | c :: rest => needle.isPrefixOf (c :: rest) || pyContainsAux needle rest

/-- Case-insensitive containment `a.lower() in b.lower()` from
`list_courses_generic`. -/
def containsCI (needle hay : String) : Bool :=
  pyContainsAux (needle.toList.map pyLower) (hay.toList.map pyLower)

/-- The whitespace set Python `int()` strips around a numeral: the
Unicode White_Space characters — the `str.strip()` set without
U+001C..U+001F (verified against CPython: `int("\x1c3")` raises while
`str.strip` removes U+001C). -/
def isIntSpace (c : Char) : Bool :=
  isPySpace c ∧ ¬ ('\x1c' ≤ c ∧ c ≤ '\x1f')

/-- Python `int(s)` for a decimal string: optional surrounding
whitespace, optional sign, then at least one ASCII digit.  `none`
models the `ValueError` raised on any other shape (digit-grouping
underscores and non-ASCII decimal digits are not modelled: on those the
model only under-approximates the parsable inputs, and no
caller-relevant header contains them). -/
def pyInt (s : String) : Option Int :=
  let t := ((s.toList.dropWhile isIntSpace).reverse.dropWhile isIntSpace).reverse
  let core : List Char → Option Int := fun ds =>
    if ds.isEmpty ∨ ¬ ds.all isAsciiDigit then none
    else some (Int.ofNat (ds.foldl (fun acc c => acc * 10 + (c.toNat - '0'.toNat)) 0))
  match t with
  | '+' :: ds => core ds
  | '-' :: ds => (core ds).map (fun n => -n)
  | ds => core ds

/-! ## `clean_course_name`: the four `re.sub` passes

The source is

```
n = re.sub(r"\s*\([^)]+?\d{4}\)\s*$", "", n)
n = re.sub(r"\s*\((?:Spring|Fall|Summer|Winter)[^)]+\)\s*$", "", n, flags=re.I)
n = re.sub(r"-(?:\d{2}|ON\d?)-\d{5,}", "", n, flags=re.I)
n = re.sub(r"\s{2,}", " ", n).strip()
```

Each pass is translated to a direct string function with Python's
leftmost-match, backtracking semantics (validated against `re` on a
test battery).  The two `$`-anchored patterns can match at most once. -/

/-- Splits `cs = pre ++ [c] ++ post` around the last occurrence of `c`;
`none` when `c` does not occur. -/
def splitAtLastChar (c : Char) (cs : List Char) : Option (List Char × List Char) :=
  let rv := cs.reverse
  let post := rv.takeWhile (fun x => x ≠ c)
  match rv.dropWhile (fun x => x ≠ c) with
  | [] => none
  | _ :: restRev => some (restRev.reverse, post.reverse)

/-- The suffix of `cs` strictly after the last `c` (all of `cs` when `c`
does not occur). -/
def afterLastChar (c : Char) (cs : List Char) : List Char :=
  (cs.reverse.takeWhile (fun x => x ≠ c)).reverse

/-- First pass of `clean_course_name`:
`re.sub(r"\s*\([^)]+?\d{4}\)\s*$", "", n)`.  A match needs: a final `)`
followed only by whitespace; an opening `(` after the previous `)` whose
content (no `)` inside) has length at least 5 and ends in four digits;
the leftmost such `(` wins, together with the whitespace run before it. -/
def stripYearParen (cs : List Char) : List Char :=
  match splitAtLastChar ')' cs with
  | none => cs
  | some (pre, post) =>
    if post.all isPySpace then
      let zone := afterLastChar ')' pre
      let keep := cs.take (pre.length - zone.length)
      let b1 := zone.takeWhile (fun x => x ≠ '(')
      match zone.dropWhile (fun x => x ≠ '(') with
      | _ :: content =>
        if 5 ≤ content.length ∧ (content.drop (content.length - 4)).all isAsciiDigit then
          rstripWs (keep ++ b1)
        else cs
      | [] => cs
    else cs

/-- The four season words of the second pattern, lowercased. -/
def seasonWords : List (List Char) :=
  ["spring".toList, "fall".toList, "summer".toList, "winter".toList]

/-- Does `content` start (case-insensitively) with a season word followed
by at least one further character (`[^)]+` needs one)? -/
def startsWithSeason (content : List Char) : Bool :=
  seasonWords.any fun w =>
    w.isPrefixOf (content.map pyLower) ∧ w.length < content.length

/-- Scans `zone` for the leftmost `(` whose tail satisfies
`startsWithSeason`; returns the part before the `(` and the content. -/
def findSeasonParen : List Char → Option (List Char × List Char)
  | [] => none
  | c :: rest =>
    if c = '(' ∧ startsWithSeason rest then some ([], rest)
    else
      match findSeasonParen rest with
      | some (b1, content) => some (c :: b1, content)
      | none => none

/-- Second pass of `clean_course_name`:
`re.sub(r"\s*\((?:Spring|Fall|Summer|Winter)[^)]+\)\s*$", "", n, flags=re.I)`. -/
def stripSeasonParen (cs : List Char) : List Char :=
  match splitAtLastChar ')' cs with
  | none => cs
  | some (pre, post) =>
    if post.all isPySpace then
      let zone := afterLastChar ')' pre
      let keep := cs.take (pre.length - zone.length)
      match findSeasonParen zone with
      | some (b1, _) => rstripWs (keep ++ b1)
      | none => cs
    else cs

/-- After an initial `-`: matches `(?:\d{2}|ON\d?)-\d{5,}` (case
insensitive) with the greedy run of digits, returning the remainder of
the input after the match.  The two alternatives start with disjoint
characters, so Python's ordered alternation needs no cross-branch
backtracking; `ON\d?` backtracks internally exactly when the optional
digit is followed by a non-`-`, which then fails anyway. -/
def matchDashDigits (cs : List Char) : Option (List Char) :=
  match cs with
  | '-' :: rest =>
    if 5 ≤ (rest.takeWhile isAsciiDigit).length then some (rest.dropWhile isAsciiDigit)
    else none
  | _ => none

/-- The `(?:\d{2}|ON\d?)-\d{5,}` tail of the section-id pattern. -/
def matchSectionTail (cs : List Char) : Option (List Char) :=
  match cs with
  | a :: b :: rest =>
    if isAsciiDigit a then
      if isAsciiDigit b then matchDashDigits rest else none
    else if pyLower a = 'o' ∧ pyLower b = 'n' then
      match rest with
      | c :: rest2 => if isAsciiDigit c then matchDashDigits rest2 else matchDashDigits rest
      | [] => none
    else none
  | _ => none

/-- Third pass of `clean_course_name`:
`re.sub(r"-(?:\d{2}|ON\d?)-\d{5,}", "", n, flags=re.I)`, removing all
non-overlapping matches left to right.  The fuel argument (initialised
to the input length, one unit per consumed character) only makes the
recursion structural; it never runs out. -/
def stripSectionGo : Nat → List Char → List Char
  | 0, cs => cs
  | _ + 1, [] => []
  | fuel + 1, c :: rest =>
    if c = '-' then
      match matchSectionTail rest with
      | some rest2 => stripSectionGo fuel rest2
      | none => c :: stripSectionGo fuel rest
    else c :: stripSectionGo fuel rest

/-- Entry point of the third pass. -/
def stripSectionIds (cs : List Char) : List Char :=
  stripSectionGo cs.length cs

/-- State for the whitespace-collapsing scan: `none` = not inside a
whitespace run, `some (some c)` = run of exactly one character `c`,
`some none` = run of two or more characters. -/
def wsFlush : Option (Option Char) → List Char
  | none => []
  | some (some c) => [c]
  | some none => [' ']

/-- Fourth pass, `re.sub(r"\s{2,}", " ", n)`: a run of two or more
whitespace characters becomes a single space, a lone whitespace
character is kept verbatim. -/
def collapseWsGo (st : Option (Option Char)) : List Char → List Char
  | [] => wsFlush st
  | c :: rest =>
    if isPySpace c then
      match st with
      | none => collapseWsGo (some (some c)) rest
      | some _ => collapseWsGo (some none) rest
    else wsFlush st ++ c :: collapseWsGo none rest

/-- Entry point of the fourth pass. -/
def collapseWs (cs : List Char) : List Char := collapseWsGo none cs

/-- Translation of `clean_course_name`: `None` or an empty name becomes
`"Untitled"`, otherwise the four regex passes run in order and the
result is stripped. -/
def clean_course_name (name : Option String) : String :=
  match name with
  | none => "Untitled"
  | some s =>
    if s = "" then "Untitled"
    else ⟨stripWs (collapseWs (stripSectionIds (stripSeasonParen (stripYearParen s.toList))))⟩

/-! ## Dates and times

`parse_iso8601` calls `datetime.fromisoformat` on the input with `"Z"`
replaced by `"+00:00"`, converts to UTC, and returns `None` on any
exception.  Datetimes are modelled as UTC instants: integers counting
microseconds from 1970-01-01T00:00:00Z.  Civil-date conversions use the
standard era-based algorithms.  A naive parsed datetime (no offset) is
converted by `astimezone` with the process-local timezone; the model
fixes that local timezone to UTC. -/

/-- Gregorian leap year, as in `datetime`. -/
def isLeapYear (y : Nat) : Bool :=
  y % 4 = 0 ∧ (y % 100 ≠ 0 ∨ y % 400 = 0)

/-- Number of days of month `m` in year `y`. -/
def daysInMonth (y m : Nat) : Nat :=
  if m = 2 then (if isLeapYear y then 29 else 28)
  else if m = 4 ∨ m = 6 ∨ m = 9 ∨ m = 11 then 30
  else 31

/-- Days from 1970-01-01 to the civil date `y-m-d` (era-based civil
calendar arithmetic; valid for `1 ≤ m ≤ 12`). -/
def daysFromCivil (y m d : Nat) : Int :=
  let y' := y - (if m ≤ 2 then 1 else 0)
  let era := y' / 400
  let yoe := y' % 400
  let mp := (m + 9) % 12
  let doy := (153 * mp + 2) / 5 + (d - 1)
  let doe := yoe * 365 + yoe / 4 - yoe / 100 + doy
  (Int.ofNat (era * 146097 + doe)) - 719468

/-- Civil date from a day count relative to 1970-01-01 (inverse of
`daysFromCivil` on the `datetime`-supported range). -/
def civilFromDays (z : Int) : Nat × Nat × Nat :=
  let zn := (z + 719468).toNat
  let era := zn / 146097
  let doe := zn % 146097
  let yoe := (doe - doe / 1460 + doe / 36524 - doe / 146096) / 365
  let y := yoe + era * 400
  let doy := doe - (365 * yoe + yoe / 4 - yoe / 100)
  let mp := (5 * doy + 2) / 153
  let d := doy - (153 * mp + 2) / 5 + 1
  let m := if mp < 10 then mp + 3 else mp - 9
  (if m ≤ 2 then y + 1 else y, m, d)

/-- Microseconds per day. -/
def usPerDay : Int := 86400000000

/-- UTC instant (microseconds since the epoch) of a civil datetime with
a UTC offset given in minutes. -/
def toInstant (y m d h mi s micro : Nat) (offMin : Int) : Int :=
  daysFromCivil y m d * usPerDay
    + (Int.ofNat ((h * 3600 + mi * 60 + s) * 1000000 + micro))
    - offMin * 60000000

/-- Instant of `datetime.min` = 0001-01-01T00:00:00 (UTC-attached). -/
def minInstant : Int := toInstant 1 1 1 0 0 0 0 0

/-- Instant of `datetime.max` = 9999-12-31T23:59:59.999999
(UTC-attached), the undated sort key of `sort_assignments`. -/
def maxInstant : Int := toInstant 9999 12 31 23 59 59 999999 0

/-- Reads exactly `n` ASCII digits as a number. -/
def readDigits (n : Nat) (cs : List Char) : Option (Nat × List Char) :=
  let ds := cs.take n
  if ds.length = n ∧ ds.all isAsciiDigit then
    some (ds.foldl (fun acc c => acc * 10 + (c.toNat - '0'.toNat)) 0, cs.drop n)
  else none

/-- Expects the single character `c` next. -/
def expectChar (c : Char) : List Char → Option (List Char)
  | x :: rest => if x = c then some rest else none
  | [] => none

/-- Parses the `±HH:MM` trailing UTC offset; `some (none, _)` means no
offset (a naive datetime), `none` means a malformed tail. -/
def parseOffset : List Char → Option (Option Int × List Char)
  | [] => some (none, [])
  | c :: rest =>
    if c = '+' ∨ c = '-' then
      match readDigits 2 rest with
      | some (oh, r1) =>
        match expectChar ':' r1 with
        | some r2 =>
          match readDigits 2 r2 with
          | some (om, r3) =>
            if oh ≤ 23 ∧ om ≤ 59 then
              some (some ((if c = '-' then -1 else 1) * (Int.ofNat (oh * 60 + om))), r3)
            else none
          | none => none
        | none => none
      | none => none
    else none

/-- Parses `.f`, 1 to 6 fractional-second digits, scaled to
microseconds; `some (0, cs)` when there is no fraction. -/
def parseFraction : List Char → Option (Nat × List Char)
  | '.' :: rest =>
    let ds := rest.takeWhile isAsciiDigit
    if 1 ≤ ds.length ∧ ds.length ≤ 6 then
      some ((ds.foldl (fun acc c => acc * 10 + (c.toNat - '0'.toNat)) 0)
              * 10 ^ (6 - ds.length), rest.dropWhile isAsciiDigit)
    else none
  | cs => some (0, cs)

/-- Parses `HH:MM[:SS[.ffffff]]` plus the optional offset. -/
def parseTimeTail (cs : List Char) : Option (Nat × Nat × Nat × Nat × Option Int) :=
  match readDigits 2 cs with
  | none => none
  | some (h, r1) =>
    match expectChar ':' r1 with
    | none => none
    | some r2 =>
      match readDigits 2 r2 with
      | none => none
      | some (mi, r3) =>
        let secPart : Option (Nat × Nat × List Char) :=
          match expectChar ':' r3 with
          | some r4 =>
            match readDigits 2 r4 with
            | some (s, r5) =>
              match parseFraction r5 with
              | some (micro, r6) => some (s, micro, r6)
              | none => none
            | none => none
          | none => some (0, 0, r3)
        match secPart with
        | none => none
        | some (s, micro, r6) =>
          match parseOffset r6 with
          | none => none
          | some (off, r7) =>
            if r7.isEmpty ∧ h ≤ 23 ∧ mi ≤ 59 ∧ s ≤ 59 then some (h, mi, s, micro, off)
            else none

/-- Model of `datetime.fromisoformat` on the grammar the source relies
on (`YYYY-MM-DD`, optionally `T`/space plus `HH:MM[:SS[.ffffff]]` and a
`±HH:MM` offset), followed by `.astimezone(timezone.utc)`.  Returns the
UTC instant; `none` models the exceptions swallowed by `parse_iso8601`
(malformed input, calendar-invalid fields, or the `OverflowError` when
the offset pushes the UTC result outside years 1..9999). -/
def fromIsoUTC (cs : List Char) : Option Int :=
  match readDigits 4 cs with
  | none => none
  | some (y, r1) =>
    match expectChar '-' r1 with
    | none => none
    | some r2 =>
      match readDigits 2 r2 with
      | none => none
      | some (m, r3) =>
        match expectChar '-' r3 with
        | none => none
        | some r4 =>
          match readDigits 2 r4 with
          | none => none
          | some (d, r5) =>
            if ¬ (1 ≤ y ∧ 1 ≤ m ∧ m ≤ 12 ∧ 1 ≤ d ∧ d ≤ daysInMonth y m) then none
            else
              let timePart : Option (Nat × Nat × Nat × Nat × Option Int) :=
                match r5 with
                | [] => some (0, 0, 0, 0, none)
                | 'T' :: r6 => parseTimeTail r6
                | ' ' :: r6 => parseTimeTail r6
                | _ => none
              match timePart with
              | none => none
              | some (h, mi, s, micro, off) =>
                let t := toInstant y m d h mi s micro (off.getD 0)
                if minInstant ≤ t ∧ t ≤ maxInstant then some t else none

/-- Python `due_at.replace("Z", "+00:00")` (single-character pattern, so
a per-character expansion). -/
def replaceZ (cs : List Char) : List Char :=
  cs.flatMap fun c => if c = 'Z' then "+00:00".toList else [c]

/-- Translation of `parse_iso8601`: `None`/empty input gives `None`,
otherwise the `Z`-normalised string is parsed and converted to UTC,
with every failure collapsed to `None` by the `try/except`. -/
def parse_iso8601 (due_at : Option String) : Option Int :=
  match due_at with
  | none => none
  | some s => if s = "" then none else fromIsoUTC (replaceZ s.toList)

/-- Zero-pads the decimal representation of `n` to `w` characters, as
`date.isoformat` does for its fields. -/
def padNum (w n : Nat) : List Char :=
  let ds := (Nat.toDigits 10 n)
  List.replicate (w - ds.length) '0' ++ ds

/-- The `YYYY-MM-DD` rendering of the civil date of a UTC instant,
`dt.date().isoformat()`. -/
def isoDateOfInstant (t : Int) : String :=
  let c := civilFromDays (Int.ediv t usPerDay)
  ⟨padNum 4 c.1 ++ '-' :: padNum 2 c.2.1 ++ '-' :: padNum 2 c.2.2⟩

/-- Translation of `format_date_only`. -/
def format_date_only (dt : Option Int) : String :=
  match dt with
  | none => "No due date"
  | some t => isoDateOfInstant t

/-! ## Records and HTTP responses

A JSON record (course or assignment) is modelled with exactly the fields
the source reads, each optional to mirror defensive `dict.get` access.
The network is scripted: a `Response` carries the data the source reads
off a `requests` response (status code, headers, decoded JSON body). -/

/-- A course/assignment record.  `id` models `course["id"]` (always
present on the records the source indexes), `termName` models
`(c.get("term") or {}).get("name", "")` with `none` for a missing term
or name, and `published` keeps Python's presence-versus-value
distinction (`"published" in a` vs `a.get("published", False)`). -/
structure Rec where
  id : Nat := 0
  name : Option String := none
  termName : Option String := none
  dueAt : Option String := none
  published : Option Bool := none
deriving DecidableEq

/-- A decoded JSON response body: a list of records or a single object
(`paginate` flattens the former and yields the latter whole). -/
inductive JsonBody where
  | arr (items : List Rec)
  | obj (item : Rec)
deriving DecidableEq

/-- One scripted HTTP response. -/
structure Response where
  status : Nat
  headers : List (String × String) := []
  body : JsonBody := .arr []
deriving DecidableEq

/-- Python `headers.get(k)` on the header association list. -/
def headerGet (headers : List (String × String)) (k : String) : Option String :=
  List.lookup k headers

/-! ## `_get_with_retries`

The retry loop is driven by the scripted list of responses the server
would return to the successive identical requests.  Sleeps are returned
as data (`time.sleep` durations, in seconds, in order).  The loop

  - on 429 sleeps `int(headers.get("Retry-After", "3"))` seconds and
    retries, incrementing the shared attempt counter, without cap;
  - on 500/502/503/504 returns the response once `attempt >= max_retries`,
    else sleeps `2 ** attempt` seconds and retries;
  - on any other status returns the response at once.

`int(...)` raising `ValueError` on an unparseable header (and
`time.sleep` raising on a negative one) is the `valueError` outcome;
`scriptExhausted` marks the modelling artifact of running off the end of
the script, which no theorem's inputs reach. -/

/-- Outcome of `_get_with_retries` on a script. -/
inductive FetchResult where
  | ok (resp : Response) (sleeps : List Int)
  | valueError (sleeps : List Int)
  | scriptExhausted (sleeps : List Int)
deriving DecidableEq

/-- Records one sleep in front of an outcome's sleep trace. -/
def addSleep (t : Int) : FetchResult → FetchResult
  | .ok r s => .ok r (t :: s)
  | .valueError s => .valueError (t :: s)
  | .scriptExhausted s => .scriptExhausted (t :: s)

/-- Is the status one of the retried transient codes 500/502/503/504? -/
def isTransient (st : Nat) : Bool :=
  st = 500 ∨ st = 502 ∨ st = 503 ∨ st = 504

/-- Translation of `_get_with_retries` (default `max_retries=4`),
parameterised by the current value of the `attempt` counter. -/
def getWithRetries (maxRetries : Nat) : Nat → List Response → FetchResult
  | _, [] => .scriptExhausted []
  | attempt, r :: rest =>
    if r.status = 429 then
      match pyInt ((headerGet r.headers "Retry-After").getD "3") with
      | none => .valueError []
      | some t =>
        if t < 0 then .valueError []
        else addSleep t (getWithRetries maxRetries (attempt + 1) rest)
    else if isTransient r.status then
      if maxRetries ≤ attempt then .ok r []
      else addSleep (2 ^ attempt) (getWithRetries maxRetries (attempt + 1) rest)
    else .ok r []

/-! ## `next_link_from_headers` -/

/-- Python `str.split(sep)` for a one-character separator. -/
def splitOnChar (sep : Char) : List Char → List (List Char)
  | [] => [[]]
  | c :: rest =>
    match splitOnChar sep rest with
    | [] => [[c]]
    | p :: ps => if c = sep then [] :: p :: ps else (c :: p) :: ps

/-- Leftmost match of `re.search(r"<([^>]+)>", part)`: the first `<`
followed by at least one non-`>` character and then `>`; returns the
captured group. -/
def findAngleGroup : List Char → Option (List Char)
  | [] => none
  | c :: rest =>
    if c = '<' then
      match rest.dropWhile (fun x => x ≠ '>') with
      | '>' :: _ =>
        let taken := rest.takeWhile (fun x => x ≠ '>')
        if taken.isEmpty then findAngleGroup rest else some taken
      | _ => findAngleGroup rest
    else findAngleGroup rest

/-- The characters of the literal `rel="next"`. -/
def relNextChars : List Char := ['r', 'e', 'l', '=', '\x22', 'n', 'e', 'x', 't', '\x22']

/-- Translation of `next_link_from_headers`: take the `Link` header
(falling back to `link`, then `""` under Python truthiness), split it on
commas, and return the angle-bracketed URL of the first part containing
`rel="next"` that has one. -/
def next_link_from_headers (headers : List (String × String)) : Option String :=
  let linkVal :=
    match headerGet headers "Link" with
    | some v => if v = "" then ((headerGet headers "link").getD "") else v
    | none => (headerGet headers "link").getD ""
  let parts := splitOnChar ',' linkVal.toList
  let firstHit := parts.findSome? fun part =>
    if pyContainsAux relNextChars part then findAngleGroup part else none
  firstHit.map fun cs => ⟨cs⟩

/-! ## `paginate`

`paginate` repeatedly issues `_get_with_retries`, raises on a non-ok
final response, yields the body's records, and follows the `rel="next"`
link with `params=None`.  The script is one retry-layer script per
page-level request.  The generator's result is returned together with
the log of issued page requests (URL and the explicit params, if any),
which makes the claim "params only on the first request, next-URL used
verbatim" stateable.  Errors surface as `Except.error`. -/

/-- Errors propagating out of pagination. -/
inductive PagError where
  | http (status : Nat)
  | valueError
  | exhausted
deriving DecidableEq

/-- One logged page request. -/
structure PageRequest where
  url : String
  params : Option (List (String × String))
deriving DecidableEq

/-- Items yielded from one decoded body. -/
def bodyItems : JsonBody → List Rec
  | .arr l => l
  | .obj r => [r]

/-- Translation of `paginate`.  The `while url:` guard uses Python
truthiness, so an empty URL ends the loop. -/
def paginate (url : String) (params : Option (List (String × String))) :
    List (List Response) → Except PagError (List Rec × List PageRequest)
  | [] => if url = "" then .ok ([], []) else .error .exhausted
  | attempts :: rest =>
    if url = "" then .ok ([], [])
    else
        match getWithRetries 4 0 attempts with
        | .valueError _ => .error .valueError
        | .scriptExhausted _ => .error .exhausted
        | .ok resp _ =>
          if 400 ≤ resp.status then .error (.http resp.status)
          else
            let items := bodyItems resp.body
            match next_link_from_headers resp.headers with
            | none => .ok (items, [⟨url, params⟩])
            | some nxt =>
              match paginate nxt none rest with
              | .ok (more, reqs) => .ok (items ++ more, ⟨url, params⟩ :: reqs)
              | .error e => .error e

/-! ## `list_courses_generic` and `list_my_courses_for_term`

`list_courses_generic` consumes `paginate`'s generator lazily: after
each yielded course it appends it when the term matches and then breaks
as soon as `len(matches) >= max_courses`, abandoning the rest of the
current page and never requesting further pages.  The model fuses the
generator with its consumer so that this item-level early exit (and the
fact that an error on a never-reached page is never raised) is explicit;
page requests again go through `_get_with_retries`. -/

/-- The client-side term filter:
`term_sub.lower() in ((c.get("term") or {}).get("name", "")).lower()`. -/
def courseMatches (termSub : String) (c : Rec) : Bool :=
  containsCI termSub (c.termName.getD "")

/-- The per-item loop body over one page's items: append matching
courses and stop (`break`) as soon as the accumulated matches reach
`maxCourses`; the Bool reports whether the loop broke. -/
def filterPageItems (termSub : String) (maxCourses : Nat) :
    List Rec → List Rec → List Rec × Bool
  | [], acc => (acc, false)
  | c :: rest, acc =>
    let acc' := if courseMatches termSub c then acc ++ [c] else acc
    if maxCourses ≤ acc'.length then (acc', true)
    else filterPageItems termSub maxCourses rest acc'

/-- Translation of the `for c in paginate(...)` loop of
`list_courses_generic` over a page script, accumulating `matches`. -/
def listCoursesPages (termSub : String) (maxCourses : Nat) (acc : List Rec) :
    List (List Response) → Except PagError (List Rec)
  | [] => .error .exhausted
  | attempts :: rest =>
    match getWithRetries 4 0 attempts with
    | .valueError _ => .error .valueError
    | .scriptExhausted _ => .error .exhausted
    | .ok resp _ =>
      if 400 ≤ resp.status then .error (.http resp.status)
      else
        let r := filterPageItems termSub maxCourses (bodyItems resp.body) acc
        if r.2 then .ok r.1
        else
          match next_link_from_headers resp.headers with
          | none => .ok r.1
          | some _ => listCoursesPages termSub maxCourses r.1 rest

/-- Translation of `list_courses_generic` itself: the loop starts with
no matches; the fixed query parameters and URL assembly do not affect
the scripted responses. -/
def list_courses_generic (termSub : String) (maxCourses : Nat)
    (script : List (List Response)) : Except PagError (List Rec) :=
  listCoursesPages termSub maxCourses [] script

/-- Modelled from the spec (for comparison with the source): a variant
whose course-count limit is checked "only after completing the filtering
of a full page", as the claim describes `list_courses_generic`. -/
def list_courses_generic_pagewise (termSub : String) (maxCourses : Nat)
    (acc : List Rec) : List (List Rec) → List Rec
  | [] => acc
  | page :: rest =>
    let acc' := acc ++ page.filter (courseMatches termSub)
    if maxCourses ≤ acc'.length then acc'
    else list_courses_generic_pagewise termSub maxCourses acc' rest

/-- The two endpoint shapes of `list_my_courses_for_term`. -/
def epCourses : String := "/api/v1/courses"

/-- The `users/self` endpoint shape. -/
def epSelf : String := "/api/v1/users/self/courses"

/-- The `for ep in endpoints` loop of `list_my_courses_for_term`: a
non-empty result returns; an empty result falls through to the next
endpoint; an `HTTPError` whose response status is at least 500 is
swallowed (continue), any other exception propagates; a fully exhausted
loop returns `[]`. -/
def tryEndpoints (scripts : String → List (List Response)) (termSub : String)
    (maxCourses : Nat) : List String → Except PagError (List Rec)
  | [] => .ok []
  | ep :: rest =>
    match list_courses_generic termSub maxCourses (scripts ep) with
    | .ok res => if res.isEmpty then tryEndpoints scripts termSub maxCourses rest else .ok res
    | .error (.http st) =>
      if 500 ≤ st then tryEndpoints scripts termSub maxCourses rest
      else .error (.http st)
    | .error e => .error e

/-- Translation of `list_my_courses_for_term`: endpoint order is fixed
by `source` ("courses" tries `/api/v1/courses` first, anything else the
`users/self` shape first); `scripts` gives each endpoint's page script. -/
def list_my_courses_for_term (scripts : String → List (List Response))
    (termSub : String) (maxCourses : Nat) (source : String) :
    Except PagError (List Rec) :=
  tryEndpoints scripts termSub maxCourses
    (if source = "courses" then [epCourses, epSelf] else [epSelf, epCourses])

/-! ## `sort_assignments`

Python's `sorted(assignments, key=key)` is a stable sort by the key
`(0, due)` for parseable due dates and `(1, datetime.max tagged UTC)`
otherwise, comparing tuples lexicographically (aware datetimes compare
by UTC instant).  Every stable sort computes the same list, so the model
uses a stable insertion sort, which the kernel can also evaluate. -/

/-- The sort key of `sort_assignments`. -/
def sortKey (a : Rec) : Nat × Int :=
  match parse_iso8601 a.dueAt with
  | some t => (0, t)
  | none => (1, maxInstant)

/-- Lexicographic comparison of sort keys (Python tuple `<=`). -/
def keyLE (p q : Nat × Int) : Bool :=
  p.1 < q.1 ∨ (p.1 = q.1 ∧ p.2 ≤ q.2)

/-- Stable insertion: `a` goes in front of the first element it is
less-or-equal to, so an earlier element wins ties. -/
def insertByKey (a : Rec) : List Rec → List Rec
  | [] => [a]
  | b :: rest => if keyLE (sortKey a) (sortKey b) then a :: b :: rest else b :: insertByKey a rest

/-- Stable insertion sort by `sortKey`. -/
def insertionSortByKey : List Rec → List Rec
  | [] => []
  | a :: rest => insertByKey a (insertionSortByKey rest)

/-- Translation of `sort_assignments`. -/
def sort_assignments (assignments : List Rec) : List Rec :=
  insertionSortByKey assignments

/-! ## Renderers -/

/-- Python `"\n".join(lines)`. -/
def joinNL (lines : List String) : String :=
  match lines with
  | [] => ""
  | l :: rest => rest.foldl (fun acc x => acc ++ "\n" ++ x) l

/-- Python `(a.get("name") or "Untitled").strip()`. -/
def assignmentName (a : Rec) : String :=
  match a.name with
  | none => "Untitled"
  | some s => if s = "" then "Untitled" else ⟨stripWs s.toList⟩

/-- The assignments of course `cid`,
`assignments_by_course.get(cid, [])`. -/
def assignmentsFor (abc : List (Nat × List Rec)) (cid : Nat) : List Rec :=
  (List.lookup cid abc).getD []

/-- Translation of `render_text`: a title line, a blank line, then per
course a header line, one line per assignment, and a blank line. -/
def render_text (title : String) (courses : List Rec)
    (abc : List (Nat × List Rec)) : String :=
  joinNL ([title, ""] ++ courses.flatMap fun course =>
    ("Course: " ++ clean_course_name course.name ++ " (ID: " ++ toString course.id ++ ")")
      :: (assignmentsFor abc course.id).map (fun a =>
            "- \x22" ++ assignmentName a ++ "\x22 | Due: "
              ++ format_date_only (parse_iso8601 a.dueAt))
      ++ [""])

/-- Python `.replace(",", " ")` (single-character pattern). -/
def replaceCommaSpace (s : String) : String :=
  ⟨s.toList.map fun c => if c = ',' then ' ' else c⟩

/-- The list `rows` built by `render_csv` before joining: a header and
one `cid,cname,aname,due` row per assignment, commas in the two name
fields replaced by spaces. -/
def render_csv_rows (courses : List Rec) (abc : List (Nat × List Rec)) : List String :=
  "course_id,course_name,assignment,due_date"
    :: courses.flatMap fun course =>
        (assignmentsFor abc course.id).map fun a =>
          toString course.id ++ "," ++ replaceCommaSpace (clean_course_name course.name)
            ++ "," ++ replaceCommaSpace (assignmentName a)
            ++ "," ++ format_date_only (parse_iso8601 a.dueAt)

/-- Translation of `render_csv` (the unused `title` parameter kept). -/
def render_csv (_title : String) (courses : List Rec)
    (abc : List (Nat × List Rec)) : String :=
  joinNL (render_csv_rows courses abc)

/-! ## Sample data and script builders used by the theorems -/

/-- A 429 response carrying the given `Retry-After` header value. -/
def mk429 (hdr : Option String) : Response :=
  { status := 429,
    headers := match hdr with | some v => [("Retry-After", v)] | none => [] }

/-- A plain 503 response. -/
def resp503 : Response := { status := 503 }

/-- A plain 200 response. -/
def resp200 : Response := { status := 200 }

/-- A 429 response whose `Retry-After` header `int` cannot parse. -/
def resp429bad : Response := mk429 (some "soon")

/-- Prepends a list of sleeps to an outcome's sleep trace. -/
def addSleeps (ts : List Int) (r : FetchResult) : FetchResult := ts.foldr addSleep r

/-- A 200 page response with body `b` and no `Link` header. -/
def lastPage (b : JsonBody) : Response := { status := 200, body := b }

/-- A 200 page response with body `b` whose `Link` header advertises `u`
as the next page. -/
def linkedPage (b : JsonBody) (u : String) : Response :=
  { status := 200, headers := [("Link", "<" ++ u ++ ">; rel=\x22next\x22")], body := b }

/-- Builds the page-request script of a clean N-page pagination: page k
links to the k-th url, the last page has no link; each page needs one
request (no retries). -/
def buildScript : List JsonBody → List String → List (List Response)
  | [b], [] => [[lastPage b]]
  | b :: rest, u :: us => [linkedPage b u] :: buildScript rest us
  | _, _ => []

/-- Builds a clean all-200 course-listing script from page item lists:
every page but the last advertises a next link. -/
def mkCourseScript : List (List Rec) → List (List Response)
  | [] => []
  | [page] => [[lastPage (.arr page)]]
  | page :: rest => [linkedPage (.arr page) "n"] :: mkCourseScript rest

/-- A sample course record. -/
def course1 : Rec := { id := 1 }

/-- A second sample course record. -/
def course2 : Rec := { id := 2 }

/-- A third sample course record. -/
def course3 : Rec := { id := 3 }

end Canvas

namespace Canvas

/-! ## Lemmas about `_get_with_retries` -/

/-- A transient status is not 429. -/
theorem isTransient_ne_429 {st : Nat} (h : isTransient st = true) : st ≠ 429 := by
  simp only [isTransient, decide_eq_true_eq] at h
  omega

/-- One backoff step of the retry loop below the retry cap. -/
theorem getWithRetries_transient_step (m a : Nat) (r : Response) (rest : List Response)
    (h : isTransient r.status = true) (hlt : a < m) :
    getWithRetries m a (r :: rest) = addSleep (2 ^ a) (getWithRetries m (a + 1) rest) := by
  simp [getWithRetries, isTransient_ne_429 h, h, Nat.not_le.mpr hlt]

/-- At the retry cap a transient response is returned as-is. -/
theorem getWithRetries_transient_stop (m a : Nat) (r : Response) (rest : List Response)
    (h : isTransient r.status = true) (hge : m ≤ a) :
    getWithRetries m a (r :: rest) = .ok r [] := by
  simp [getWithRetries, isTransient_ne_429 h, h, hge]

/-- A response that is neither 429 nor transient is returned at once. -/
theorem getWithRetries_done (m a : Nat) (r : Response) (rest : List Response)
    (h429 : r.status ≠ 429) (htr : isTransient r.status = false) :
    getWithRetries m a (r :: rest) = .ok r [] := by
  simp [getWithRetries, h429, htr]

/-- The `Retry-After` header of `mk429 hdr` is `hdr`. -/
theorem headerGet_mk429 (hdr : Option String) :
    headerGet (mk429 hdr).headers "Retry-After" = hdr := by
  cases hdr <;> rfl

/-- One 429 step: sleep the parsed (nonnegative) `Retry-After` value and
retry, incrementing the shared attempt counter. -/
theorem getWithRetries_429_step (m a : Nat) (hdr : Option String) (t : Int)
    (rest : List Response) (hp : pyInt (hdr.getD "3") = some t) (hnn : 0 ≤ t) :
    getWithRetries m a (mk429 hdr :: rest) = addSleep t (getWithRetries m (a + 1) rest) := by
  have hs : (mk429 hdr).status = 429 := rfl
  simp [getWithRetries, hs, headerGet_mk429, hp, Int.not_lt.mpr hnn]

/-- Prepending sleeps to an `ok` outcome concatenates the traces. -/
theorem addSleeps_ok (ts : List Int) (r : Response) (s : List Int) :
    addSleeps ts (.ok r s) = .ok r (ts ++ s) := by
  induction ts with
  | nil => rfl
  | cons t ts ih => simp [addSleeps, List.foldr_cons, addSleep] at ih ⊢; simp [ih, addSleep]

/-- A run of `k` 429 responses with header `hdr` sleeps the parsed value
`k` times and advances the attempt counter by `k`. -/
theorem getWithRetries_429_run (m : Nat) (hdr : Option String) (t : Int)
    (hp : pyInt (hdr.getD "3") = some t) (hnn : 0 ≤ t) (k : Nat) :
    ∀ (a : Nat) (rest : List Response),
      getWithRetries m a (List.replicate k (mk429 hdr) ++ rest) =
        addSleeps (List.replicate k t) (getWithRetries m (a + k) rest) := by
  induction k with
  | zero => intro a rest; simp [addSleeps]
  | succ k ih =>
    intro a rest
    rw [List.replicate_succ, List.cons_append,
      getWithRetries_429_step m a hdr t _ hp hnn, ih (a + 1) rest]
    simp [addSleeps, List.replicate_succ]
    ring_nf

/-- A run of transient responses starting at attempt `a` with `j`
retries left sleeps `2^a, …, 2^(a+j-1)` and returns the `(j+1)`-st
response. -/
theorem getWithRetries_transient_run (r : Response) (h : isTransient r.status = true) :
    ∀ (j a : Nat), a + j = 4 →
      getWithRetries 4 a (List.replicate (j + 1) r) =
        .ok r ((List.range j).map fun i => (2 : Int) ^ (a + i)) := by
  intro j
  induction j with
  | zero =>
    intro a ha
    rw [List.replicate_succ, List.replicate_zero]
    exact getWithRetries_transient_stop 4 a r [] h (by omega)
  | succ j ih =>
    intro a ha
    rw [List.replicate_succ, getWithRetries_transient_step 4 a r _ h (by omega),
      ih (a + 1) (by omega)]
    simp [addSleep, List.range_succ_eq_map, Function.comp]
    intro i _
    omega

/-- C2: for every sequence of transient (500/502/503/504) responses,
`_get_with_retries` retries with exponential backoff `2^attempt`
seconds, the attempt counter starting at 0 (sleeps 1, 2, 4, 8), for at
most 4 additional attempts, and after exhausting retries returns the
fifth (last) failing response — no exception, no further requests, even
if the server would keep failing. -/
theorem fetch_5xx_exponential_backoff_returns_last
    (r1 r2 r3 r4 r5 : Response) (rest : List Response)
    (h1 : isTransient r1.status = true) (h2 : isTransient r2.status = true)
    (h3 : isTransient r3.status = true) (h4 : isTransient r4.status = true)
    (h5 : isTransient r5.status = true) :
    getWithRetries 4 0 (r1 :: r2 :: r3 :: r4 :: r5 :: rest) = .ok r5 [1, 2, 4, 8] := by
  rw [getWithRetries_transient_step 4 0 r1 _ h1 (by omega),
    getWithRetries_transient_step 4 1 r2 _ h2 (by omega),
    getWithRetries_transient_step 4 2 r3 _ h3 (by omega),
    getWithRetries_transient_step 4 3 r4 _ h4 (by omega),
    getWithRetries_transient_stop 4 4 r5 rest h5 (by omega)]
  norm_num [addSleep]

/-- Witness for the retry-exhaustion theorem: five consecutive 503
responses produce the final failing response and the backoff trace. -/
theorem fetch_5xx_exponential_backoff_returns_last_w :
    getWithRetries 4 0 [resp503, resp503, resp503, resp503, resp503] = .ok resp503 [1, 2, 4, 8] :=
  fetch_5xx_exponential_backoff_returns_last resp503 resp503 resp503 resp503 resp503 []
    (by decide) (by decide) (by decide) (by decide) (by decide)

/-- C9: the 429 branch and the 5xx branch share one `attempt` counter:
after `k` 429 responses (each sleeping the default 3 seconds), a
following run of 503 responses gets only `4 - k` backoff retries (none
once `k ≥ 4`), with sleeps starting at `2^k`, before the failing
response is returned. -/
theorem fetch_shared_attempt_counter (k : Nat) :
    getWithRetries 4 0 (List.replicate k (mk429 none) ++ List.replicate (4 - k + 1) resp503) =
      .ok resp503
        (List.replicate k 3 ++ (List.range (4 - k)).map fun i => (2 : Int) ^ (k + i)) := by
  rw [getWithRetries_429_run 4 none 3 (by decide) (by decide) k 0 _]
  rcases le_or_lt k 4 with hk | hk
  · rw [Nat.zero_add, getWithRetries_transient_run resp503 (by decide) (4 - k) k (by omega),
      addSleeps_ok]
  · have h4 : 4 - k = 0 := by omega
    rw [Nat.zero_add, h4]
    rw [show List.replicate (0 + 1) resp503 = [resp503] from rfl,
      getWithRetries_transient_stop 4 k resp503 [] (by decide) (by omega), addSleeps_ok]
    simp

/-- C3 counterexample: a present but unparseable `Retry-After` header
makes `int(...)` raise `ValueError` instead of defaulting to a 3-second
sleep and retrying; the follow-up 200 response is never fetched. -/
theorem fetch_429_unparseable_header_raises :
    getWithRetries 4 0 [resp429bad, resp200] = .valueError [] ∧
    getWithRetries 4 0 [resp429bad, resp200] ≠ .ok resp200 [3] := by
  exact ⟨by decide, by decide⟩

/-- C3 amended: on 429 the loop sleeps `int(Retry-After)` seconds when
the header is present and parseable (3 when it is absent), and retries
the same request with no retry cap (`k` may exceed the 5xx cap of 4);
a present but unparseable header instead raises `ValueError`. -/
theorem fetch_429_sleeps_and_retries_uncapped (k : Nat) (hdr : Option String) (t : Int)
    (r : Response) (rest : List Response)
    (hp : pyInt (hdr.getD "3") = some t) (hnn : 0 ≤ t)
    (h429 : r.status ≠ 429) (htr : isTransient r.status = false) :
    getWithRetries 4 0 (List.replicate k (mk429 hdr) ++ r :: rest) =
      .ok r (List.replicate k t) := by
  rw [getWithRetries_429_run 4 hdr t hp hnn k 0 (r :: rest),
    getWithRetries_done 4 (0 + k) r rest h429 htr, addSleeps_ok]
  simp

/-- Witness: six defaulted 429 sleeps (exceeding the 5xx retry cap)
followed by a 200 response that is returned. -/
theorem fetch_429_sleeps_and_retries_uncapped_w :
    getWithRetries 4 0 (List.replicate 6 (mk429 none) ++ [resp200]) =
      .ok resp200 (List.replicate 6 3) :=
  fetch_429_sleeps_and_retries_uncapped 6 none 3 resp200 []
    (by decide) (by decide) (by decide) (by decide)

/-! ## Lemmas about the course-listing loop -/

/-- Characterisation of the per-item page loop: starting below the
limit, it returns the accumulated-plus-filtered items truncated at the
limit, and reports a break exactly when the limit was reached. -/
theorem filterPageItems_spec (termSub : String) (maxC : Nat) :
    ∀ (items acc : List Rec), acc.length < maxC →
      filterPageItems termSub maxC items acc =
        ((acc ++ items.filter (courseMatches termSub)).take maxC,
          decide (maxC ≤ (acc ++ items.filter (courseMatches termSub)).length)) := by
  intro items
  induction items with
  | nil =>
    intro acc h
    simp [filterPageItems, List.take_of_length_le h.le, Nat.not_le.mpr h]
  | cons c rest ih =>
    intro acc h
    by_cases hm : courseMatches termSub c = true
    · have e1 : filterPageItems termSub maxC (c :: rest) acc =
          if maxC ≤ (acc ++ [c]).length then (acc ++ [c], true)
          else filterPageItems termSub maxC rest (acc ++ [c]) := by
        simp [filterPageItems, hm]
      have hfil : List.filter (courseMatches termSub) (c :: rest)
          = c :: List.filter (courseMatches termSub) rest := List.filter_cons_of_pos hm
      rw [e1, hfil]
      by_cases hl : maxC ≤ (acc ++ [c]).length
      · rw [if_pos hl]
        have hmc : maxC = acc.length + 1 := by
          simp only [List.length_append, List.length_cons, List.length_nil] at hl
          omega
        have ht : (acc ++ c :: List.filter (courseMatches termSub) rest).take maxC
            = acc ++ [c] := by
          rw [hmc]
          have h2 := @List.take_append _ acc
            (c :: List.filter (courseMatches termSub) rest) 1
          simpa using h2
        have hd : decide (maxC ≤ (acc ++ c :: List.filter (courseMatches termSub) rest).length)
            = true := by
          simp only [List.length_append, List.length_cons, decide_eq_true_eq]
          omega
        rw [ht, hd]
      · rw [if_neg hl, ih (acc ++ [c]) (Nat.lt_of_not_le hl)]
        simp [List.append_assoc]
    · have e2 : filterPageItems termSub maxC (c :: rest) acc =
          if maxC ≤ acc.length then (acc, true)
          else filterPageItems termSub maxC rest acc := by
        simp [filterPageItems, hm]
      have hfil : List.filter (courseMatches termSub) (c :: rest)
          = List.filter (courseMatches termSub) rest := List.filter_cons_of_neg (by simp [hm])
      rw [e2, hfil, if_neg (Nat.not_le.mpr h), ih acc h]

/-- Unfolding of one loop iteration of `listCoursesPages` on a clean
single-request 200 page. -/
theorem listCoursesPages_okPage (termSub : String) (maxC : Nat) (acc : List Rec)
    (resp : Response) (rest : List (List Response)) (hst : resp.status = 200) :
    listCoursesPages termSub maxC acc ([resp] :: rest) =
      (if (filterPageItems termSub maxC (bodyItems resp.body) acc).2 then
        .ok (filterPageItems termSub maxC (bodyItems resp.body) acc).1
      else
        match next_link_from_headers resp.headers with
        | none => .ok (filterPageItems termSub maxC (bodyItems resp.body) acc).1
        | some _ =>
          listCoursesPages termSub maxC
            (filterPageItems termSub maxC (bodyItems resp.body) acc).1 rest) := by
  rw [listCoursesPages,
    getWithRetries_done 4 0 resp [] (by simp [hst]) (by simp [isTransient, hst])]
  simp only [hst]
  norm_num

/-- Course-listing over a clean multi-page script, starting below the
limit: the result is the filtered concatenation truncated at the limit,
and the loop stops as soon as the limit is reached. -/
theorem listCoursesPages_mkScript (termSub : String) (maxC : Nat) :
    ∀ (pages : List (List Rec)) (acc : List Rec), pages ≠ [] → acc.length < maxC →
      listCoursesPages termSub maxC acc (mkCourseScript pages) =
        .ok ((acc ++ pages.flatten.filter (courseMatches termSub)).take maxC) := by
  intro pages
  induction pages with
  | nil => intro acc h; exact absurd rfl h
  | cons page rest ih =>
    intro acc _ hacc
    cases rest with
    | nil =>
      show listCoursesPages termSub maxC acc [[lastPage (.arr page)]] = _
      rw [listCoursesPages_okPage termSub maxC acc (lastPage (.arr page)) [] rfl]
      rw [show bodyItems (lastPage (.arr page)).body = page from rfl]
      rw [filterPageItems_spec termSub maxC page acc hacc]
      by_cases hl : maxC ≤ (acc ++ page.filter (courseMatches termSub)).length
      · rw [if_pos (by simpa using hl)]
        simp
      · rw [if_neg (by simpa using hl)]
        rw [show next_link_from_headers (lastPage (.arr page)).headers = none from rfl]
        simp
    | cons p2 rest2 =>
      show listCoursesPages termSub maxC acc
        ([linkedPage (.arr page) "n"] :: mkCourseScript (p2 :: rest2)) = _
      rw [listCoursesPages_okPage termSub maxC acc (linkedPage (.arr page) "n") _ rfl]
      rw [show bodyItems (linkedPage (.arr page) "n").body = page from rfl]
      rw [filterPageItems_spec termSub maxC page acc hacc]
      by_cases hl : maxC ≤ (acc ++ page.filter (courseMatches termSub)).length
      · rw [if_pos (by simpa using hl)]
        simp only [List.flatten_cons, List.filter_append, ← List.append_assoc]
        congr 1
        rw [List.append_assoc, List.take_append_of_le_length hl]
      · have hlt : (acc ++ page.filter (courseMatches termSub)).length < maxC :=
          Nat.lt_of_not_le hl
        rw [if_neg (by simpa using hl)]
        rw [show next_link_from_headers (linkedPage (.arr page) "n").headers
            = some "n" from rfl]
        show listCoursesPages termSub maxC
            ((acc ++ page.filter (courseMatches termSub)).take maxC)
            (mkCourseScript (p2 :: rest2)) = _
        rw [List.take_of_length_le hlt.le,
          ih (acc ++ page.filter (courseMatches termSub)) (by simp) hlt]
        simp [List.filter_append, List.append_assoc]

/-- C1 counterexample: a single page of three term-matching courses with
`max_courses = 1`.  The source stops mid-page after the first match and
returns one course, while the claimed page-complete limit check (the
spec-modelled `list_courses_generic_pagewise`) finishes filtering the
page and returns all three; the two results differ. -/
theorem list_courses_limit_mid_page_cex :
    list_courses_generic "" 1 (mkCourseScript [[course1, course2, course3]]) =
        .ok [course1] ∧
    list_courses_generic_pagewise "" 1 [] [[course1, course2, course3]] =
        [course1, course2, course3] ∧
    ([course1] : List Rec) ≠ [course1, course2, course3] := by
  exact ⟨rfl, rfl, by decide⟩

/-- C1 amended: during a term search the course-count limit is checked
after every yielded item, not only after a page completes: on any clean
multi-page listing, `list_courses_generic` stops accumulating (and stops
filtering, mid-page) as soon as the limit is reached, returning exactly
the first `max_courses` term-matching courses — the filtered
concatenation of the pages truncated at the limit (for a positive
limit).  Whole pages are still fetched per request, so more records than
the limit may come from upstream, but never more than one page beyond
the limit. -/
theorem list_courses_limit_checked_per_item (termSub : String) (maxC : Nat)
    (pages : List (List Rec)) (h1 : 1 ≤ maxC) (hne : pages ≠ []) :
    list_courses_generic termSub maxC (mkCourseScript pages) =
      .ok ((pages.flatten.filter (courseMatches termSub)).take maxC) := by
  have h := listCoursesPages_mkScript termSub maxC pages [] hne
    (by simp only [List.length_nil]; omega)
  simpa [list_courses_generic] using h

/-- Witness: two pages, limit 2, empty term filter — the first two
courses are returned. -/
theorem list_courses_limit_checked_per_item_w :
    list_courses_generic "" 2 (mkCourseScript [[course1], [course2, course3]]) =
      .ok (([[course1], [course2, course3]].flatten.filter (courseMatches "")).take 2) :=
  list_courses_limit_checked_per_item "" 2 [[course1], [course2, course3]]
    (by omega) (by simp)

/-- C7: when listing courses for a term, the two endpoint shapes are
tried in the fixed order selected by `source`; a non-empty success from
the first endpoint is returned; an `HTTPError` with status below 500
(or a non-HTTP error such as `ValueError`) propagates immediately; an
HTTP error with status at least 500, or an empty result, makes the loop
move on to the second (and last) endpoint alone. -/
theorem term_search_endpoint_fallback (scripts : String → List (List Response))
    (termSub : String) (maxC : Nat) (source : String) (e1 e2 : String)
    (he : (if source = "courses" then [epCourses, epSelf] else [epSelf, epCourses])
      = [e1, e2]) :
    (∀ l, list_courses_generic termSub maxC (scripts e1) = .ok l → l ≠ [] →
      list_my_courses_for_term scripts termSub maxC source = .ok l) ∧
    (∀ st, list_courses_generic termSub maxC (scripts e1) = .error (.http st) → st < 500 →
      list_my_courses_for_term scripts termSub maxC source = .error (.http st)) ∧
    (list_courses_generic termSub maxC (scripts e1) = .error .valueError →
      list_my_courses_for_term scripts termSub maxC source = .error .valueError) ∧
    (∀ st, list_courses_generic termSub maxC (scripts e1) = .error (.http st) → 500 ≤ st →
      list_my_courses_for_term scripts termSub maxC source =
        tryEndpoints scripts termSub maxC [e2]) ∧
    (list_courses_generic termSub maxC (scripts e1) = .ok [] →
      list_my_courses_for_term scripts termSub maxC source =
        tryEndpoints scripts termSub maxC [e2]) := by
  have hmain : list_my_courses_for_term scripts termSub maxC source =
      tryEndpoints scripts termSub maxC [e1, e2] := by
    rw [list_my_courses_for_term, he]
  refine ⟨?_, ?_, ?_, ?_, ?_⟩
  · intro l hok hne
    rw [hmain, tryEndpoints, hok]
    simp [hne]
  · intro st herr hlt
    rw [hmain, tryEndpoints, herr]
    simp [Nat.not_le.mpr hlt]
  · intro herr
    rw [hmain, tryEndpoints, herr]
  · intro st herr hge
    rw [hmain, tryEndpoints, herr]
    simp [hge]
  · intro hok
    rw [hmain, tryEndpoints, hok]
    simp

/-- Witness: the courses endpoint fails with 503 after retries, so the
fallback tries the `users/self` endpoint alone. -/
theorem term_search_endpoint_fallback_w :
    list_my_courses_for_term
      (fun ep => if ep = epCourses then [List.replicate 5 resp503]
        else [[lastPage (.arr [course1])]]) "" 2 "courses" =
      tryEndpoints
        (fun ep => if ep = epCourses then [List.replicate 5 resp503]
          else [[lastPage (.arr [course1])]]) "" 2 [epSelf] :=
  (term_search_endpoint_fallback
    (fun ep => if ep = epCourses then [List.replicate 5 resp503]
      else [[lastPage (.arr [course1])]]) "" 2 "courses" epCourses epSelf
    rfl).2.2.2.1 503 (by rfl) (by omega)

/-- Python `split` on a separator-free string returns the whole
string. -/
theorem splitOnChar_no_sep (sep : Char) :
    ∀ (l : List Char), (∀ c ∈ l, c ≠ sep) → splitOnChar sep l = [l] := by
  intro l
  induction l with
  | nil => intro _; rfl
  | cons c rest ih =>
    intro h
    rw [splitOnChar, ih (fun x hx => h x (List.mem_cons_of_mem c hx))]
    simp [h c (List.mem_cons_self c rest)]

/-- Python containment holds for any infix occurrence. -/
theorem pyContainsAux_middle (needle : List Char) :
    ∀ (a b : List Char), pyContainsAux needle (a ++ needle ++ b) = true := by
  intro a
  induction a with
  | nil =>
    intro b
    simp only [List.nil_append]
    cases hn : needle with
    | nil => cases b <;> simp [pyContainsAux, List.isPrefixOf]
    | cons n ns =>
      simp only [List.cons_append, pyContainsAux]
      have hp : (n :: ns).isPrefixOf (n :: (ns ++ b)) = true := by
        rw [List.isPrefixOf_iff_prefix]
        exact ⟨b, by simp⟩
      simp [hp]
  | cons x a2 ih =>
    intro b
    simp only [List.cons_append, pyContainsAux]
    have := ih b
    simp only [List.append_assoc] at this ⊢
    simp [this]

/-- Dropping non-`>` characters over a `>`-free prefix stops at the
first `>`. -/
theorem dropWhile_until_gt (rest : List Char) :
    ∀ (u : List Char), (∀ c ∈ u, c ≠ '>') →
      (u ++ '>' :: rest).dropWhile (fun x => x ≠ '>') = '>' :: rest := by
  intro u
  induction u with
  | nil => intro _; simp [List.dropWhile]
  | cons c u2 ih =>
    intro h
    have hc : (decide (c ≠ '>')) = true := by
      simp [h c (List.mem_cons_self c u2)]
    simp only [List.cons_append, List.dropWhile_cons]
    rw [if_pos hc]
    exact ih (fun x hx => h x (List.mem_cons_of_mem c hx))

/-- Taking non-`>` characters over a `>`-free prefix yields that
prefix. -/
theorem takeWhile_until_gt (rest : List Char) :
    ∀ (u : List Char), (∀ c ∈ u, c ≠ '>') →
      (u ++ '>' :: rest).takeWhile (fun x => x ≠ '>') = u := by
  intro u
  induction u with
  | nil => intro _; simp [List.takeWhile]
  | cons c u2 ih =>
    intro h
    have hc : (decide (c ≠ '>')) = true := by
      simp [h c (List.mem_cons_self c u2)]
    simp only [List.cons_append, List.takeWhile_cons]
    rw [if_pos hc, ih (fun x hx => h x (List.mem_cons_of_mem c hx))]

/-- A non-empty string has a non-empty character list. -/
theorem string_ne_empty_toList {u : String} (h : u ≠ "") : u.toList ≠ [] := by
  intro hl
  apply h
  cases u with
  | mk data =>
    cases data with
    | nil => rfl
    | cons c cs => simp [String.toList] at hl

/-- Round trip of the link header written by `linkedPage`: for a
next-page URL without commas or closing angle brackets,
`next_link_from_headers` recovers it verbatim. -/
theorem next_link_linkedPage (b : JsonBody) (u : String)
    (hc : ¬ ',' ∈ u.toList) (hg : ¬ '>' ∈ u.toList) (hne : u ≠ "") :
    next_link_from_headers (linkedPage b u).headers = some u := by
  have hemp : ("<" ++ u ++ ">; rel=\x22next\x22") ≠ "" := by
    intro hcon
    have := congrArg String.toList hcon
    simp [String.toList, String.data_append] at this
  have hreduce : next_link_from_headers (linkedPage b u).headers =
      (((splitOnChar ',' ("<" ++ u ++ ">; rel=\x22next\x22").toList).findSome? fun part =>
        if pyContainsAux relNextChars part then findAngleGroup part else none).map
          fun cs => (⟨cs⟩ : String)) := by
    rw [next_link_from_headers]
    rw [show headerGet (linkedPage b u).headers "Link"
        = some ("<" ++ u ++ ">; rel=\x22next\x22") from rfl]
    simp [hemp]
  have hchars : ("<" ++ u ++ ">; rel=\x22next\x22").toList
      = '<' :: (u.toList ++ '>' :: ("; rel=\x22next\x22".toList)) := by
    simp [String.toList, String.data_append]
  have htail : ∀ x ∈ ("; rel=\x22next\x22".toList), x ≠ ',' := by decide
  have hnosep : ∀ c ∈ '<' :: (u.toList ++ '>' :: ("; rel=\x22next\x22".toList)), c ≠ ',' := by
    intro c hcmem
    rcases List.mem_cons.mp hcmem with h1 | h2
    · subst h1; decide
    · rcases List.mem_append.mp h2 with h3 | h4
      · intro hceq; exact hc (hceq ▸ h3)
      · rcases List.mem_cons.mp h4 with h5 | h6
        · subst h5; decide
        · exact htail c h6
  have hu : ∀ c ∈ u.toList, c ≠ '>' := fun c hcm hceq => hg (hceq ▸ hcm)
  have hcontains : pyContainsAux relNextChars
      ('<' :: (u.toList ++ '>' :: ("; rel=\x22next\x22".toList))) = true := by
    have hsplit : '<' :: (u.toList ++ '>' :: ("; rel=\x22next\x22".toList))
        = ('<' :: u.toList ++ ['>', ';', ' ']) ++ relNextChars ++ [] := by
      simp [relNextChars]
    rw [hsplit]
    exact pyContainsAux_middle relNextChars _ _
  have hangle : findAngleGroup
      ('<' :: (u.toList ++ '>' :: ("; rel=\x22next\x22".toList))) = some u.toList := by
    rw [findAngleGroup, if_pos rfl, dropWhile_until_gt _ u.toList hu]
    show (if (u.toList ++ '>' :: ("; rel=\x22next\x22".toList)).takeWhile
        (fun x => x ≠ '>') |>.isEmpty then _ else _) = _
    rw [takeWhile_until_gt _ u.toList hu]
    rw [if_neg (by simp [List.isEmpty_iff]; exact string_ne_empty_toList hne)]
  rw [hreduce, hchars, splitOnChar_no_sep ',' _ hnosep, List.findSome?_cons]
  rw [if_pos hcontains, hangle]
  rfl


/-- Unfolding of one `paginate` iteration on a clean single-request 200
page. -/
theorem paginate_okPage (url0 : String) (params : Option (List (String × String)))
    (resp : Response) (rest : List (List Response))
    (hst : resp.status = 200) (h0 : url0 ≠ "") :
    paginate url0 params ([resp] :: rest) =
      (match next_link_from_headers resp.headers with
       | none => .ok (bodyItems resp.body, [⟨url0, params⟩])
       | some nxt =>
         match paginate nxt none rest with
         | .ok (more, reqs) => .ok (bodyItems resp.body ++ more, ⟨url0, params⟩ :: reqs)
         | .error e => .error e) := by
  rw [paginate, if_neg h0,
    getWithRetries_done 4 0 resp [] (by simp [hst]) (by simp [isTransient, hst])]
  simp only [hst]
  norm_num

/-- A clean 200 page with no next link ends the pagination. -/
theorem paginate_okPage_last (url0 : String) (params : Option (List (String × String)))
    (resp : Response) (rest : List (List Response))
    (hst : resp.status = 200) (h0 : url0 ≠ "")
    (hlink : next_link_from_headers resp.headers = none) :
    paginate url0 params ([resp] :: rest) = .ok (bodyItems resp.body, [⟨url0, params⟩]) := by
  rw [paginate_okPage url0 params resp rest hst h0, hlink]

/-- A clean 200 page with a next link recurses on the link with no
params. -/
theorem paginate_okPage_link (url0 nxt : String) (params : Option (List (String × String)))
    (resp : Response) (rest : List (List Response))
    (hst : resp.status = 200) (h0 : url0 ≠ "")
    (hlink : next_link_from_headers resp.headers = some nxt) :
    paginate url0 params ([resp] :: rest) =
      (match paginate nxt none rest with
       | .ok (more, reqs) => .ok (bodyItems resp.body ++ more, ⟨url0, params⟩ :: reqs)
       | .error e => .error e) := by
  rw [paginate_okPage url0 params resp rest hst h0, hlink]

/-- C4: over any clean N-page pagination (every page 200, each page but
the last carrying a valid next-link, the last carrying none), `paginate`
yields exactly the concatenation of all pages' items — list bodies
flattened in source order, a single-object body contributing its sole
element — each item exactly once, in page order then in-page order; and
the explicit query parameters are attached only to the first request,
every subsequent request using the extracted next-page URL verbatim with
`params=None`. -/
theorem paginate_yields_concatenation_params_first_only :
    ∀ (bodies : List JsonBody) (urls : List String) (url0 : String)
      (params : Option (List (String × String))),
      bodies.length = urls.length + 1 →
      (∀ u ∈ urls, ¬ ',' ∈ u.toList ∧ ¬ '>' ∈ u.toList ∧ u ≠ "") →
      url0 ≠ "" →
      paginate url0 params (buildScript bodies urls) =
        .ok ((bodies.map bodyItems).flatten,
          ⟨url0, params⟩ :: urls.map fun u => PageRequest.mk u none) := by
  intro bodies
  induction bodies with
  | nil => intro urls url0 params hlen _ _; simp at hlen
  | cons b rest ih =>
    intro urls url0 params hlen hurls h0
    cases rest with
    | nil =>
      cases urls with
      | cons u us => simp at hlen
      | nil =>
        show paginate url0 params [[lastPage b]] = _
        rw [paginate_okPage_last url0 params (lastPage b) [] rfl h0 rfl]
        simp [lastPage]
    | cons b2 rest2 =>
      cases urls with
      | nil => simp at hlen
      | cons u us =>
        obtain ⟨hcm, hgm, hnem⟩ := hurls u (List.mem_cons_self u us)
        show paginate url0 params
          ([linkedPage b u] :: buildScript (b2 :: rest2) us) = _
        rw [paginate_okPage_link url0 u params (linkedPage b u) _ rfl h0
          (next_link_linkedPage b u hcm hgm hnem)]
        rw [ih us u none (by simpa using hlen)
          (fun v hv => hurls v (List.mem_cons_of_mem u hv)) hnem]
        rfl

/-- Witness: a two-page pagination (a list body then a single-object
body) with explicit params on the first request only. -/
theorem paginate_yields_concatenation_params_first_only_w :
    paginate "u1" (some [("per_page", "100")])
      (buildScript [.arr [course1, course2], .obj course3] ["u2"]) =
      .ok (([JsonBody.arr [course1, course2], JsonBody.obj course3].map bodyItems).flatten,
        ⟨"u1", some [("per_page", "100")]⟩ :: ["u2"].map fun u => PageRequest.mk u none) :=
  paginate_yields_concatenation_params_first_only
    [.arr [course1, course2], .obj course3] ["u2"] "u1" (some [("per_page", "100")])
    (by decide) (by decide) (by decide)

/-- The key comparison is total. -/
theorem keyLE_total (p q : Nat × Int) : keyLE p q = true ∨ keyLE q p = true := by
  simp [keyLE]
  omega

/-- The key comparison is transitive. -/
theorem keyLE_trans {p q r : Nat × Int} (h1 : keyLE p q = true) (h2 : keyLE q r = true) :
    keyLE p r = true := by
  simp [keyLE] at h1 h2 ⊢
  omega

/-- The key comparison is reflexive. -/
theorem keyLE_refl (p : Nat × Int) : keyLE p p = true := by
  simp [keyLE]

/-- Membership in a stable insertion. -/
theorem mem_insertByKey {x a : Rec} : ∀ {l : List Rec}, x ∈ insertByKey a l ↔ x = a ∨ x ∈ l := by
  intro l
  induction l with
  | nil => simp [insertByKey]
  | cons b rest ih =>
    by_cases hle : keyLE (sortKey a) (sortKey b) = true
    · simp [insertByKey, hle]
    · simp [insertByKey, hle, ih]
      tauto

/-- Stable insertion permutes the `cons`. -/
theorem insertByKey_perm (a : Rec) : ∀ (l : List Rec), (insertByKey a l).Perm (a :: l) := by
  intro l
  induction l with
  | nil => simp [insertByKey]
  | cons b rest ih =>
    by_cases hle : keyLE (sortKey a) (sortKey b) = true
    · simp [insertByKey, hle]
    · simp only [insertByKey, hle, if_false, Bool.false_eq_true]
      exact (List.Perm.cons b ih).trans (List.Perm.swap a b rest)

/-- Stable insertion preserves sortedness by key. -/
theorem insertByKey_pairwise (a : Rec) :
    ∀ (l : List Rec), l.Pairwise (fun x y => keyLE (sortKey x) (sortKey y) = true) →
      (insertByKey a l).Pairwise (fun x y => keyLE (sortKey x) (sortKey y) = true) := by
  intro l
  induction l with
  | nil => intro _; simp [insertByKey]
  | cons b rest ih =>
    intro hp
    rcases List.pairwise_cons.mp hp with ⟨hb, hrest⟩
    by_cases hle : keyLE (sortKey a) (sortKey b) = true
    · simp only [insertByKey, hle, if_true]
      refine List.pairwise_cons.mpr ⟨?_, hp⟩
      intro x hx
      rcases List.mem_cons.mp hx with h1 | h2
      · subst h1; exact hle
      · exact keyLE_trans hle (hb x h2)
    · simp only [insertByKey, hle, if_false, Bool.false_eq_true]
      refine List.pairwise_cons.mpr ⟨?_, ih hrest⟩
      intro x hx
      rcases mem_insertByKey.mp hx with h1 | h2
      · subst h1
        rcases keyLE_total (sortKey x) (sortKey b) with h | h
        · exact absurd h hle
        · exact h
      · exact hb x h2

/-- The stable sort permutes its input. -/
theorem insertionSortByKey_perm : ∀ (l : List Rec), (insertionSortByKey l).Perm l := by
  intro l
  induction l with
  | nil => simp [insertionSortByKey]
  | cons a rest ih =>
    exact ((insertByKey_perm a (insertionSortByKey rest)).trans (List.Perm.cons a ih))

/-- The stable sort output is pairwise key-ordered. -/
theorem insertionSortByKey_pairwise :
    ∀ (l : List Rec),
      (insertionSortByKey l).Pairwise (fun x y => keyLE (sortKey x) (sortKey y) = true) := by
  intro l
  induction l with
  | nil => simp [insertionSortByKey]
  | cons a rest ih => exact insertByKey_pairwise a _ ih

/-- Stable insertion does not reorder the elements of any single key
class. -/
theorem filter_insertByKey (k : Nat × Int) (a : Rec) :
    ∀ (l : List Rec),
      (insertByKey a l).filter (fun x => decide (sortKey x = k)) =
        (a :: l).filter (fun x => decide (sortKey x = k)) := by
  intro l
  induction l with
  | nil => rfl
  | cons b rest ih =>
    by_cases hle : keyLE (sortKey a) (sortKey b) = true
    · simp [insertByKey, hle]
    · have hne : sortKey b ≠ sortKey a := by
        intro he
        exact hle (he ▸ keyLE_refl (sortKey b))
      simp only [insertByKey, hle, if_false, Bool.false_eq_true]
      by_cases hbk : sortKey b = k
      · have hak : ¬ (sortKey a = k) := fun hak => hne (hbk.trans hak.symm)
        simp [List.filter_cons, hbk, hak] at ih ⊢
        simpa [hak] using ih
      · simp [List.filter_cons, hbk] at ih ⊢
        exact ih

/-- Stability: the elements of each key class appear in the sorted
output in their original relative order. -/
theorem filter_insertionSortByKey (k : Nat × Int) :
    ∀ (l : List Rec),
      (insertionSortByKey l).filter (fun x => decide (sortKey x = k)) =
        l.filter (fun x => decide (sortKey x = k)) := by
  intro l
  induction l with
  | nil => rfl
  | cons a rest ih =>
    rw [insertionSortByKey, filter_insertByKey k a (insertionSortByKey rest)]
    simp only [List.filter_cons]
    rw [ih]


/-- C5: `sort_assignments` permutes its input (realised by a stable
sort by the key `(0, due_instant)` for dated and `(1, max_instant)` for
undated items); in its output every assignment with a parseable due
date appears before every assignment without one, and among dated
assignments the UTC instants are non-decreasing; and the sort is stable
(each sort-key class keeps its original relative order). -/
theorem sort_assignments_stable_dated_first (l : List Rec) :
    (sort_assignments l).Perm l ∧
    (sort_assignments l).Pairwise (fun a b =>
      ((parse_iso8601 b.dueAt).isSome → (parse_iso8601 a.dueAt).isSome) ∧
      (∀ ta tb, parse_iso8601 a.dueAt = some ta → parse_iso8601 b.dueAt = some tb →
        ta ≤ tb)) ∧
    (∀ k, (sort_assignments l).filter (fun x => decide (sortKey x = k)) =
      l.filter (fun x => decide (sortKey x = k))) := by
  refine ⟨insertionSortByKey_perm l, ?_, fun k => filter_insertionSortByKey k l⟩
  have hp := insertionSortByKey_pairwise l
  refine hp.imp ?_
  intro a b hR
  constructor
  · intro hbdated
    cases ha : parse_iso8601 a.dueAt with
    | some ta => simp
    | none =>
      exfalso
      cases hb : parse_iso8601 b.dueAt with
      | none => rw [hb] at hbdated; simp at hbdated
      | some tb =>
        rw [show sortKey a = (1, maxInstant) from by simp [sortKey, ha]] at hR
        rw [show sortKey b = (0, tb) from by simp [sortKey, hb]] at hR
        simp [keyLE] at hR
  · intro ta tb ha hb
    rw [show sortKey a = (0, ta) from by simp [sortKey, ha]] at hR
    rw [show sortKey b = (0, tb) from by simp [sortKey, hb]] at hR
    simpa [keyLE] using hR

/-- C8: on the scenario course `id 1` named "Intro to X (Spring 2025)"
with assignments HW1 (due `2025-03-01T00:00:00Z`) and Final (no due
date), sorted, `render_text` emits the title, a blank line, the header
`Course: Intro to X (ID: 1)`, then the HW1 line with the date
`2025-03-01`, then the Final line with `No due date`, in that order;
and any assignment whose due string does not parse renders as the
literal `No due date` instead of raising. -/
theorem render_text_scenario :
    render_text "T" [{ id := 1, name := some "Intro to X (Spring 2025)" }]
      [(1, sort_assignments
        [{ name := some "HW1", dueAt := some "2025-03-01T00:00:00Z" },
         { name := some "Final" }])] =
      "T\n\nCourse: Intro to X (ID: 1)\n- \x22HW1\x22 | Due: 2025-03-01\n- \x22Final\x22 | Due: No due date\n" ∧
    (∀ s : String, parse_iso8601 (some s) = none →
      render_text "T" [{ id := 1, name := some "Intro to X (Spring 2025)" }]
        [(1, [{ name := some "A", dueAt := some s }])] =
        "T\n\nCourse: Intro to X (ID: 1)\n- \x22A\x22 | Due: No due date\n") := by
  constructor
  · rfl
  · intro s hs
    have h1 : format_date_only (parse_iso8601 (some s)) = "No due date" := by
      rw [hs]
      rfl
    simp [render_text, assignmentsFor, h1]
    rfl

/-- Witness: an unparseable due-date string degrades to the literal
`No due date` line. -/
theorem render_text_scenario_w :
    render_text "T" [{ id := 1, name := some "Intro to X (Spring 2025)" }]
      [(1, [{ name := some "A", dueAt := some "not-a-date" }])] =
      "T\n\nCourse: Intro to X (ID: 1)\n- \x22A\x22 | Due: No due date\n" :=
  render_text_scenario.2 "not-a-date" (by rfl)

/-- A decimal digit character is never a comma. -/
theorem digitChar_ne_comma (n : Nat) : Nat.digitChar n ≠ ',' := by
  rcases Nat.lt_or_ge n 16 with h16 | h16
  · interval_cases n <;> decide
  · have he : Nat.digitChar n = '*' := by
      unfold Nat.digitChar
      repeat rw [if_neg (by omega)]
    rw [he]
    decide

/-- The digits of a number never contain a comma. -/
theorem toDigitsCore_ne_comma (b : Nat) :
    ∀ (fuel n : Nat) (acc : List Char), (∀ c ∈ acc, c ≠ ',') →
      ∀ c ∈ Nat.toDigitsCore b fuel n acc, c ≠ ',' := by
  intro fuel
  induction fuel with
  | zero => intro n acc hacc; simpa [Nat.toDigitsCore] using hacc
  | succ fuel ih =>
    intro n acc hacc c hc
    rw [Nat.toDigitsCore] at hc
    by_cases h0 : n / b = 0
    · rw [if_pos h0] at hc
      rcases List.mem_cons.mp hc with h1 | h2
      · exact h1 ▸ digitChar_ne_comma (n % b)
      · exact hacc c h2
    · rw [if_neg h0] at hc
      refine ih (n / b) (Nat.digitChar (n % b) :: acc) ?_ c hc
      intro x hx
      rcases List.mem_cons.mp hx with h1 | h2
      · exact h1 ▸ digitChar_ne_comma (n % b)
      · exact hacc x h2

/-- The decimal rendering of a `Nat` contains no comma. -/
theorem natToString_ne_comma (n : Nat) : ',' ∉ (toString n).toList := by
  intro hmem
  exact toDigitsCore_ne_comma 10 (n + 1) n [] (by simp) ',' hmem rfl

/-- A zero-padded number contains no comma. -/
theorem padNum_ne_comma (w n : Nat) : ',' ∉ padNum w n := by
  intro hmem
  rcases List.mem_append.mp hmem with h1 | h2
  · exact absurd (List.eq_of_mem_replicate h1) (by decide)
  · exact toDigitsCore_ne_comma 10 (n + 1) n [] (by simp) ',' h2 rfl

/-- A rendered due date (a calendar date or the literal placeholder)
contains no comma. -/
theorem format_date_only_ne_comma (d : Option Int) : ',' ∉ (format_date_only d).toList := by
  cases d with
  | none => decide
  | some t =>
    intro hmem
    show False
    have : (format_date_only (some t)).toList
        = padNum 4 (civilFromDays (Int.ediv t usPerDay)).1
          ++ '-' :: (padNum 2 (civilFromDays (Int.ediv t usPerDay)).2.1
          ++ '-' :: padNum 2 (civilFromDays (Int.ediv t usPerDay)).2.2) := by
      simp [format_date_only, isoDateOfInstant, String.toList]
    rw [this] at hmem
    rcases List.mem_append.mp hmem with h1 | h2
    · exact padNum_ne_comma _ _ h1
    · rcases List.mem_cons.mp h2 with h3 | h4
      · exact absurd h3 (by decide)
      · rcases List.mem_append.mp h4 with h5 | h6
        · exact padNum_ne_comma _ _ h5
        · rcases List.mem_cons.mp h6 with h7 | h8
          · exact absurd h7 (by decide)
          · exact padNum_ne_comma _ _ h8

/-- After `.replace(",", " ")` no comma remains. -/
theorem replaceCommaSpace_ne_comma (s : String) : ',' ∉ (replaceCommaSpace s).toList := by
  intro hmem
  have : ∀ x ∈ s.toList.map (fun c => if c = ',' then ' ' else c), x ≠ ',' := by
    intro x hx
    rcases List.mem_map.mp hx with ⟨c, _, hc⟩
    by_cases hcc : c = ','
    · simp [hcc] at hc
      subst hc
      decide
    · simp [hcc] at hc
      subst hc
      exact hcc
  exact this ',' hmem rfl

/-- A four-field row whose three free fields are comma-free has exactly
three commas. -/
theorem count_comma_row (cid : Nat) (cname aname due : String)
    (h1 : ',' ∉ cname.toList) (h2 : ',' ∉ aname.toList) (h3 : ',' ∉ due.toList) :
    (toString cid ++ "," ++ cname ++ "," ++ aname ++ "," ++ due).toList.count ',' = 3 := by
  have h0 : ',' ∉ (toString cid).toList := natToString_ne_comma cid
  simp only [String.toList] at h0 h1 h2 h3
  simp only [String.toList, String.data_append, List.count_append]
  rw [List.count_eq_zero.mpr h0, List.count_eq_zero.mpr h1,
    List.count_eq_zero.mpr h2, List.count_eq_zero.mpr h3]
  decide

/-- C10: every row of the CSV renderer has exactly three commas (four
fields): commas in the cleaned course name and in the assignment name
are replaced by spaces before the row is assembled, and the course-id
and due-date fields never contain a comma. -/
theorem csv_rows_three_commas (courses : List Rec) (abc : List (Nat × List Rec)) :
    (∀ row ∈ render_csv_rows courses abc, row.toList.count ',' = 3) ∧
    (∀ s : String, ',' ∉ (replaceCommaSpace s).toList) ∧
    (∀ n : Nat, ',' ∉ (toString n).toList) ∧
    (∀ d : Option Int, ',' ∉ (format_date_only d).toList) := by
  refine ⟨?_, replaceCommaSpace_ne_comma, natToString_ne_comma, format_date_only_ne_comma⟩
  intro row hrow
  rcases List.mem_cons.mp hrow with h1 | h2
  · subst h1; decide
  · rcases List.mem_flatMap.mp h2 with ⟨course, _, hmap⟩
    rcases List.mem_map.mp hmap with ⟨a, _, hrow2⟩
    subst hrow2
    exact count_comma_row course.id (replaceCommaSpace (clean_course_name course.name))
      (replaceCommaSpace (assignmentName a)) (format_date_only (parse_iso8601 a.dueAt))
      (replaceCommaSpace_ne_comma _) (replaceCommaSpace_ne_comma _)
      (format_date_only_ne_comma _)

/-- Witness: a course and assignment name both containing commas still
produce a three-comma data row. -/
theorem csv_rows_three_commas_w :
    ("1,A B,x y,No due date").toList.count ',' = 3 :=
  (csv_rows_three_commas [{ id := 1, name := some "A,B (Fall 2025)" }]
    [(1, [{ name := some "x,y" }])]).1 "1,A B,x y,No due date" (by decide)

/-- C6 counterexample: `clean_course_name` is not idempotent.  Removing
the trailing section id of "Algebra (Fall 2024)-01-30797" exposes a
trailing year annotation that only a second pass strips, so the second
application differs from the first; a whitespace-only name similarly
cleans to `""` once and to `"Untitled"` twice. -/
theorem clean_course_name_not_idempotent :
    clean_course_name (some "Algebra (Fall 2024)-01-30797") = "Algebra (Fall 2024)" ∧
    clean_course_name (some (clean_course_name (some "Algebra (Fall 2024)-01-30797"))) =
      "Algebra" ∧
    ("Algebra" : String) ≠ "Algebra (Fall 2024)" ∧
    clean_course_name (some " ") = "" ∧
    clean_course_name (some (clean_course_name (some " "))) = "Untitled" := by
  exact ⟨rfl, rfl, by decide, rfl, rfl⟩

/-- The head surviving a `dropWhile` fails the predicate. -/
theorem dropWhile_head_false {p : Char → Bool} :
    ∀ (l : List Char) {x rest}, l.dropWhile p = x :: rest → p x = false := by
  intro l
  induction l with
  | nil => intro x rest h; simp [List.dropWhile] at h
  | cons c cs ih =>
    intro x rest h
    rw [List.dropWhile_cons] at h
    by_cases hc : p c = true
    · rw [if_pos hc] at h
      exact ih h
    · rw [if_neg hc] at h
      cases h
      simpa using hc

/-- A successful `splitAtLastChar` decomposes its input. -/
theorem splitAtLastChar_decomp {c : Char} {cs pre post : List Char}
    (h : splitAtLastChar c cs = some (pre, post)) : cs = pre ++ c :: post := by
  rw [splitAtLastChar] at h
  cases hdrop : cs.reverse.dropWhile (fun x => x ≠ c) with
  | nil => rw [hdrop] at h; simp at h
  | cons m restRev =>
    rw [hdrop] at h
    simp only [Option.some.injEq, Prod.mk.injEq] at h
    obtain ⟨hpre, hpost⟩ := h
    have hm : m = c := by simpa using dropWhile_head_false cs.reverse hdrop
    have hsplit := List.takeWhile_append_dropWhile (fun x => decide (x ≠ c)) cs.reverse
    rw [hdrop, hm] at hsplit
    rw [← hpre, ← hpost]
    calc cs = cs.reverse.reverse := by rw [List.reverse_reverse]
      _ = ((cs.reverse.takeWhile (fun x => decide (x ≠ c))) ++ c :: restRev).reverse := by
            rw [hsplit]
      _ = restRev.reverse ++ c :: (cs.reverse.takeWhile (fun x => decide (x ≠ c))).reverse := by
            simp

/-- Membership transfers out of `afterLastChar`. -/
theorem mem_afterLastChar {x c : Char} {cs : List Char} (h : x ∈ afterLastChar c cs) :
    x ∈ cs := by
  rw [afterLastChar, List.mem_reverse] at h
  exact List.mem_reverse.mp ((List.takeWhile_sublist _).mem h)

/-- The year-annotation pass leaves a string without `(` unchanged. -/
theorem stripYearParen_no_paren {cs : List Char} (h : '(' ∉ cs) :
    stripYearParen cs = cs := by
  unfold stripYearParen
  split
  · rfl
  · rename_i pre post heq
    have hcs := splitAtLastChar_decomp heq
    have hzone : (afterLastChar ')' pre).dropWhile (fun x => x ≠ '(') = [] := by
      rw [List.dropWhile_eq_nil_iff]
      intro x hx
      have hxpre : x ∈ pre := mem_afterLastChar hx
      have hxcs : x ∈ cs := by rw [hcs]; exact List.mem_append_left _ hxpre
      simp only [decide_eq_true_eq]
      intro hxeq
      exact h (hxeq ▸ hxcs)
    split
    · dsimp only
      rw [hzone]
    · rfl

/-- No season paren is found without a `(`. -/
theorem findSeasonParen_no_paren : ∀ {zone : List Char}, '(' ∉ zone →
    findSeasonParen zone = none := by
  intro zone
  induction zone with
  | nil => intro _; rfl
  | cons c rest ih =>
    intro h
    have hc : c ≠ '(' := fun he => h (he ▸ List.mem_cons_self c rest)
    rw [findSeasonParen, if_neg (fun hand => hc hand.1),
      ih (fun hm => h (List.mem_cons_of_mem c hm))]

/-- The season-annotation pass leaves a string without `(` unchanged. -/
theorem stripSeasonParen_no_paren {cs : List Char} (h : '(' ∉ cs) :
    stripSeasonParen cs = cs := by
  unfold stripSeasonParen
  split
  · rfl
  · rename_i pre post heq
    have hcs := splitAtLastChar_decomp heq
    have hzone : findSeasonParen (afterLastChar ')' pre) = none := by
      refine findSeasonParen_no_paren ?_
      intro hx
      have hxpre : ('(' : Char) ∈ pre := mem_afterLastChar hx
      exact h (by rw [hcs]; exact List.mem_append_left _ hxpre)
    split
    · dsimp only
      rw [hzone]
    · rfl

/-- The section-id scan leaves a string without `-` unchanged. -/
theorem stripSectionGo_no_dash :
    ∀ (fuel : Nat) {cs : List Char}, '-' ∉ cs → stripSectionGo fuel cs = cs := by
  intro fuel
  induction fuel with
  | zero => intro cs _; rfl
  | succ fuel ih =>
    intro cs h
    cases cs with
    | nil => rfl
    | cons c rest =>
      have hc : c ≠ '-' := fun he => h (he ▸ List.mem_cons_self c rest)
      rw [stripSectionGo, if_neg hc, ih (fun hm => h (List.mem_cons_of_mem c hm))]

/-- The section-id pass leaves a string without `-` unchanged. -/
theorem stripSectionIds_no_dash {cs : List Char} (h : '-' ∉ cs) :
    stripSectionIds cs = cs :=
  stripSectionGo_no_dash cs.length h


/-- The whitespace-collapsing pass never leaves two adjacent
whitespace characters. -/
theorem collapseWsGo_chain :
    ∀ (cs : List Char) (st : Option (Option Char)),
      List.Chain' (fun a b => ¬(isPySpace a = true ∧ isPySpace b = true)) (collapseWsGo st cs) := by
  intro cs
  induction cs with
  | nil =>
    intro st
    cases st with
    | none => simp [collapseWsGo, wsFlush]
    | some o => cases o <;> simp [collapseWsGo, wsFlush]
  | cons c rest ih =>
    intro st
    by_cases hsp : isPySpace c = true
    · cases st with
      | none =>
        rw [show collapseWsGo none (c :: rest) = collapseWsGo (some (some c)) rest from by
          rw [collapseWsGo]; simp [hsp]]
        exact ih (some (some c))
      | some o =>
        rw [show collapseWsGo (some o) (c :: rest) = collapseWsGo (some none) rest from by
          rw [collapseWsGo]; simp [hsp]]
        exact ih (some none)
    · rw [show collapseWsGo st (c :: rest) = wsFlush st ++ c :: collapseWsGo none rest from by
        rw [collapseWsGo.eq_def]; simp [hsp]]
      rw [List.chain'_append]
      refine ⟨?_, ?_, ?_⟩
      · cases st with
        | none => simp [wsFlush]
        | some o => cases o <;> simp [wsFlush]
      · rw [List.chain'_cons']
        refine ⟨?_, ih none⟩
        intro y _ hand
        exact hsp hand.1
      · intro x _ y hy
        simp only [List.head?_cons, Option.mem_def, Option.some.injEq] at hy
        subst hy
        intro hand
        exact hsp hand.2

/-- The whitespace-collapsing pass fixes any string with no two
adjacent whitespace characters. -/
theorem collapse_id_of_chain :
    ∀ (l : List Char),
      List.Chain' (fun a b => ¬(isPySpace a = true ∧ isPySpace b = true)) l →
      collapseWsGo none l = l := by
  intro l
  induction l with
  | nil => intro _; rfl
  | cons c rest ih =>
    intro hch
    by_cases hsp : isPySpace c = true
    · cases rest with
      | nil =>
        rw [collapseWsGo]
        simp [hsp, collapseWsGo, wsFlush]
      | cons d rest2 =>
        have hRd := (List.chain'_cons.mp hch).1
        have hch2 := (List.chain'_cons.mp hch).2
        have hd : isPySpace d = false := by
          by_cases hdd : isPySpace d = true
          · exact absurd ⟨hsp, hdd⟩ hRd
          · simpa using hdd
        have hstep1 : collapseWsGo none (c :: d :: rest2) =
            collapseWsGo (some (some c)) (d :: rest2) := by
          rw [collapseWsGo]; simp [hsp]
        have hstep2 : collapseWsGo (some (some c)) (d :: rest2) =
            c :: d :: collapseWsGo none rest2 := by
          rw [collapseWsGo]; simp [hd, wsFlush]
        have hstep3 : collapseWsGo none (d :: rest2) = d :: collapseWsGo none rest2 := by
          rw [collapseWsGo]; simp [hd, wsFlush]
        have hih := ih hch2
        rw [hstep3] at hih
        have hres2 : collapseWsGo none rest2 = rest2 := by
          simpa using hih
        rw [hstep1, hstep2, hres2]
    · have hstep : collapseWsGo none (c :: rest) = c :: collapseWsGo none rest := by
        rw [collapseWsGo]; simp [hsp, wsFlush]
      rw [hstep, ih hch.tail]

/-- Dropping a prefix twice is dropping it once. -/
theorem dropWhile_idem (p : Char → Bool) (l : List Char) :
    (l.dropWhile p).dropWhile p = l.dropWhile p := by
  cases hdrop : l.dropWhile p with
  | nil => rfl
  | cons x rest =>
    have hx := dropWhile_head_false l hdrop
    rw [List.dropWhile_cons, if_neg (by simp [hx])]

/-- Right-stripping yields a prefix. -/
theorem rstripWs_front (l : List Char) : rstripWs l <+: l := by
  refine List.reverse_suffix.mp ?_
  rw [rstripWs, List.reverse_reverse]
  exact List.dropWhile_suffix _

/-- Right-stripping is idempotent. -/
theorem rstripWs_idem (l : List Char) : rstripWs (rstripWs l) = rstripWs l := by
  rw [rstripWs, rstripWs, List.reverse_reverse, dropWhile_idem]

/-- The head of a left-stripped string is not whitespace. -/
theorem lstripWs_head_false {l : List Char} {x : Char} {rest : List Char}
    (h : lstripWs l = x :: rest) : isPySpace x = false :=
  dropWhile_head_false l h

/-- Left-stripping fixes a string whose head is not whitespace. -/
theorem lstripWs_of_head_false {x : Char} {rest : List Char} (h : isPySpace x = false) :
    lstripWs (x :: rest) = x :: rest := by
  rw [lstripWs, List.dropWhile_cons, if_neg (by simp [h])]

/-- Python `strip` is idempotent. -/
theorem stripWs_idem (l : List Char) : stripWs (stripWs l) = stripWs l := by
  rw [stripWs, stripWs]
  have hlt : lstripWs (rstripWs (lstripWs l)) = rstripWs (lstripWs l) := by
    cases ht : rstripWs (lstripWs l) with
    | nil => rfl
    | cons x rest =>
      have hpre : rstripWs (lstripWs l) <+: lstripWs l := rstripWs_front _
      rw [ht] at hpre
      obtain ⟨tl, htl⟩ := hpre
      have hl2 : lstripWs l = x :: (rest ++ tl) := by
        rw [← htl]; simp
      exact lstripWs_of_head_false (lstripWs_head_false hl2)
  rw [hlt, rstripWs_idem]

/-- Stripping yields an infix. -/
theorem stripWs_within (l : List Char) : stripWs l <:+: l :=
  List.IsInfix.trans (List.IsPrefix.isInfix (rstripWs_front (lstripWs l)))
    (List.IsSuffix.isInfix (List.dropWhile_suffix _))

/-- Stripping yields a sublist. -/
theorem stripWs_sublist (l : List Char) : (stripWs l).Sublist l :=
  ((rstripWs_front (lstripWs l)).sublist).trans (List.dropWhile_sublist _)

/-- The collapsing pass only emits spaces, input characters, or the
pending state character. -/
theorem mem_collapseWsGo_bound :
    ∀ (cs : List Char) (st : Option (Option Char)) (x : Char),
      x ∈ collapseWsGo st cs → x = ' ' ∨ x ∈ cs ∨ x ∈ wsFlush st := by
  intro cs
  induction cs with
  | nil => intro st x hx; exact Or.inr (Or.inr (by simpa [collapseWsGo] using hx))
  | cons c rest ih =>
    intro st x hx
    by_cases hsp : isPySpace c = true
    · cases st with
      | none =>
        rw [show collapseWsGo none (c :: rest) = collapseWsGo (some (some c)) rest from by
          rw [collapseWsGo]; simp [hsp]] at hx
        rcases ih (some (some c)) x hx with h1 | h2 | h3
        · exact Or.inl h1
        · exact Or.inr (Or.inl (List.mem_cons_of_mem c h2))
        · simp only [wsFlush, List.mem_singleton] at h3
          exact Or.inr (Or.inl (h3 ▸ List.mem_cons_self c rest))
      | some o =>
        rw [show collapseWsGo (some o) (c :: rest) = collapseWsGo (some none) rest from by
          rw [collapseWsGo]; simp [hsp]] at hx
        rcases ih (some none) x hx with h1 | h2 | h3
        · exact Or.inl h1
        · exact Or.inr (Or.inl (List.mem_cons_of_mem c h2))
        · simp only [wsFlush, List.mem_singleton] at h3
          exact Or.inl h3
    · rw [show collapseWsGo st (c :: rest) = wsFlush st ++ c :: collapseWsGo none rest from by
        rw [collapseWsGo.eq_def]; simp [hsp]] at hx
      rcases List.mem_append.mp hx with h1 | h2
      · exact Or.inr (Or.inr h1)
      · rcases List.mem_cons.mp h2 with h3 | h4
        · exact Or.inr (Or.inl (h3 ▸ List.mem_cons_self c rest))
        · rcases ih none x h4 with h5 | h6 | h7
          · exact Or.inl h5
          · exact Or.inr (Or.inl (List.mem_cons_of_mem c h6))
          · simp [wsFlush] at h7

/-- The collapsing pass keeps every non-whitespace input character. -/
theorem mem_collapseWsGo_of_nonspace :
    ∀ (cs : List Char) (st : Option (Option Char)) (x : Char),
      isPySpace x = false → x ∈ cs → x ∈ collapseWsGo st cs := by
  intro cs
  induction cs with
  | nil => intro st x _ hx; simp at hx
  | cons c rest ih =>
    intro st x hxs hx
    by_cases hsp : isPySpace c = true
    · have hxr : x ∈ rest := by
        rcases List.mem_cons.mp hx with h1 | h2
        · rw [h1] at hxs; rw [hxs] at hsp; cases hsp
        · exact h2
      cases st with
      | none =>
        rw [show collapseWsGo none (c :: rest) = collapseWsGo (some (some c)) rest from by
          rw [collapseWsGo]; simp [hsp]]
        exact ih (some (some c)) x hxs hxr
      | some o =>
        rw [show collapseWsGo (some o) (c :: rest) = collapseWsGo (some none) rest from by
          rw [collapseWsGo]; simp [hsp]]
        exact ih (some none) x hxs hxr
    · rw [show collapseWsGo st (c :: rest) = wsFlush st ++ c :: collapseWsGo none rest from by
        rw [collapseWsGo.eq_def]; simp [hsp]]
      rcases List.mem_cons.mp hx with h1 | h2
      · exact List.mem_append_right _ (h1 ▸ List.mem_cons_self x _)
      · exact List.mem_append_right _ (List.mem_cons_of_mem c (ih none x hxs h2))

/-- An element failing the predicate survives `dropWhile`. -/
theorem mem_dropWhile_of_false {p : Char → Bool} :
    ∀ (l : List Char) {x : Char}, p x = false → x ∈ l → x ∈ l.dropWhile p := by
  intro l
  induction l with
  | nil => intro x _ hx; simp at hx
  | cons c rest ih =>
    intro x hpx hx
    rw [List.dropWhile_cons]
    by_cases hc : p c = true
    · rw [if_pos hc]
      rcases List.mem_cons.mp hx with h1 | h2
      · rw [h1] at hpx; rw [hpx] at hc; cases hc
      · exact ih hpx h2
    · rw [if_neg hc]
      exact hx

/-- Stripping keeps every non-whitespace character. -/
theorem mem_stripWs_of_nonspace {l : List Char} {x : Char}
    (hxs : isPySpace x = false) (hx : x ∈ l) : x ∈ stripWs l := by
  rw [stripWs, rstripWs, List.mem_reverse]
  exact mem_dropWhile_of_false _ hxs (List.mem_reverse.mpr (mem_dropWhile_of_false _ hxs hx))


/-- C6 amended: `clean_course_name` is not idempotent in general
(stripping one trailing annotation or section id can expose another that
a second pass strips); it is idempotent on every name that contains no
`(` and no `-` and at least one non-whitespace character — on such
names both applications reduce to whitespace collapsing plus stripping,
which is idempotent. -/
theorem clean_course_name_idem_of_plain (s : String)
    (hp : '(' ∉ s.toList) (hd : '-' ∉ s.toList)
    (hsome : ∃ c ∈ s.toList, isPySpace c = false) :
    clean_course_name (some (clean_course_name (some s))) = clean_course_name (some s) := by
  obtain ⟨c, hcmem, hcns⟩ := hsome
  have hsne : s ≠ "" := by
    intro he
    subst he
    simp at hcmem
  have h1 : clean_course_name (some s) = ⟨stripWs (collapseWs s.toList)⟩ := by
    show (if s = "" then "Untitled"
      else (⟨stripWs (collapseWs (stripSectionIds (stripSeasonParen
        (stripYearParen s.toList))))⟩ : String)) = _
    rw [if_neg hsne, stripYearParen_no_paren hp, stripSeasonParen_no_paren hp,
      stripSectionIds_no_dash hd]
  have hct : c ∈ stripWs (collapseWs s.toList) :=
    mem_stripWs_of_nonspace hcns (mem_collapseWsGo_of_nonspace s.toList none c hcns hcmem)
  have htne : stripWs (collapseWs s.toList) ≠ [] := List.ne_nil_of_mem hct
  have hbound : ∀ x, x ∈ stripWs (collapseWs s.toList) → x = ' ' ∨ x ∈ s.toList := by
    intro x hx
    have hx2 : x ∈ collapseWs s.toList := (stripWs_sublist _).mem hx
    rcases mem_collapseWsGo_bound s.toList none x hx2 with h1 | h2 | h3
    · exact Or.inl h1
    · exact Or.inr h2
    · simp [wsFlush] at h3
  have hp2 : '(' ∉ stripWs (collapseWs s.toList) := by
    intro hmem
    rcases hbound '(' hmem with h1 | h2
    · exact absurd h1 (by decide)
    · exact hp h2
  have hd2 : '-' ∉ stripWs (collapseWs s.toList) := by
    intro hmem
    rcases hbound '-' hmem with h1 | h2
    · exact absurd h1 (by decide)
    · exact hd h2
  have hmkne : (⟨stripWs (collapseWs s.toList)⟩ : String) ≠ "" := by
    intro he
    exact htne (congrArg String.data he)
  have h2 : clean_course_name (some ⟨stripWs (collapseWs s.toList)⟩) =
      ⟨stripWs (collapseWs (stripWs (collapseWs s.toList)))⟩ := by
    show (if (⟨stripWs (collapseWs s.toList)⟩ : String) = "" then "Untitled"
      else (⟨stripWs (collapseWs (stripSectionIds (stripSeasonParen
        (stripYearParen (stripWs (collapseWs s.toList))))))⟩ : String)) = _
    rw [if_neg hmkne, stripYearParen_no_paren hp2, stripSeasonParen_no_paren hp2,
      stripSectionIds_no_dash hd2]
  have hchain : List.Chain' (fun a b => ¬(isPySpace a = true ∧ isPySpace b = true))
      (stripWs (collapseWs s.toList)) :=
    List.Chain'.infix (collapseWsGo_chain s.toList none) (stripWs_within _)
  have hcol : collapseWs (stripWs (collapseWs s.toList)) = stripWs (collapseWs s.toList) :=
    collapse_id_of_chain _ hchain
  rw [h1, h2, hcol, stripWs_idem]

/-- Witness: a plain name with doubled internal and trailing
whitespace cleans idempotently. -/
theorem clean_course_name_idem_of_plain_w :
    clean_course_name (some (clean_course_name (some "Linear  Algebra II "))) =
      clean_course_name (some "Linear  Algebra II ") :=
  clean_course_name_idem_of_plain "Linear  Algebra II " (by decide) (by decide)
    ⟨'L', by decide, by decide⟩

end Canvas
